import Mathlib

/-!
Shallow embedding of the beatsync server core (apps/server/src) in Lean 4.

Conventions of the embedding:
* TypeScript numbers are modelled as `ℚ` (the arithmetic the claims concern is
  exact: maxima, clamps, affine combinations); timestamps (`Date.now()`,
  `epochNow()`) are passed in explicitly as a `now : ℚ` argument.
* A JS `Map` (insertion ordered, unique keys) is modelled as a `List` together
  with replace-or-append insertion (`setClient`, `wsInsert`); the map of
  WebSocket connections only matters through its key set, so it is a
  `List String` of connected client ids.
* Handlers that broadcast are modelled as pure functions returning the new
  room state together with the list of outgoing messages, each tagged as a
  broadcast (`sendBroadcast`) or a unicast (`sendUnicast`).
* `Math.cos` / `Math.sin` / `Math.PI` (used only for client/listening-source
  geometry, which no claim computes with) are abstracted into a `TrigModel`
  parameter; `Math.random()` is passed in as a rational `randFrac ∈ [0,1)`.
-/

namespace Beatsync

/-- GRID constants from packages/shared/types/basic.ts. -/
def GRID_SIZE : ℚ := 100

/-- GRID.ORIGIN_X. -/
def GRID_ORIGIN_X : ℚ := 50

/-- GRID.ORIGIN_Y. -/
def GRID_ORIGIN_Y : ℚ := 50

/-- GRID.CLIENT_RADIUS. -/
def GRID_CLIENT_RADIUS : ℚ := 25

/-- MIN_SCHEDULE_TIME_MS from config.ts. -/
def MIN_SCHEDULE_TIME_MS : ℚ := 400

/-- DEFAULT_CLIENT_RTT_MS from config.ts. -/
def DEFAULT_CLIENT_RTT_MS : ℚ := 0

/-- CAP_SCHEDULE_TIME_MS from config.ts. -/
def CAP_SCHEDULE_TIME_MS : ℚ := 3000

/-- config.ts `calculateScheduleTimeMs`: `min(max(400, maxRTT * 1.5 + 200), 3000)`. -/
def calculateScheduleTimeMs (maxRTT : ℚ) : ℚ :=
  min (max MIN_SCHEDULE_TIME_MS (maxRTT * (3/2) + 200)) CAP_SCHEDULE_TIME_MS

/-- Position from packages/shared/types/basic.ts. -/
structure Position where
  x : ℚ
  y : ℚ
deriving DecidableEq, Repr

/-- Location payload (LocationSchema of the shared types): city, region,
country, countryCode, flagSvgURL. Carried opaquely by the server. -/
structure Location where
  city : String
  region : String
  country : String
  countryCode : String
  flagSvgURL : String
deriving DecidableEq, Repr

/-- ClientDataSchema from packages/shared/types/WSBroadcast.ts. -/
structure ClientData where
  username : String
  clientId : String
  rtt : ℚ
  position : Position
  lastNtpResponse : ℚ
  isAdmin : Bool
  location : Option Location
  joinedAt : ℚ
deriving DecidableEq, Repr

/-- AudioSourceSchema: an opaque url. -/
structure AudioSource where
  url : String
deriving DecidableEq, Repr

/-- The two playback state discriminants of RoomPlaybackStateSchema. -/
inductive PlaybackType where
  | playing
  | paused
deriving DecidableEq, Repr

/-- RoomPlaybackStateSchema from RoomManager.ts. -/
structure PlaybackState where
  type : PlaybackType
  audioSource : String
  serverTimeToExecute : ℚ
  trackPositionSeconds : ℚ
deriving DecidableEq, Repr

/-- INITIAL_PLAYBACK_STATE from RoomManager.ts. -/
def INITIAL_PLAYBACK_STATE : PlaybackState :=
  { type := .paused, audioSource := "", serverTimeToExecute := 0,
    trackPositionSeconds := 0 }

/-- PlayActionSchema payload: PLAY carries an audioSource url and a track time. -/
structure PlayAction where
  audioSource : String
  trackTimeSeconds : ℚ
deriving DecidableEq, Repr

/-- PauseActionSchema payload: PAUSE carries an audioSource url and a track time. -/
structure PauseAction where
  audioSource : String
  trackTimeSeconds : ℚ
deriving DecidableEq, Repr

/-- ChatMessageSchema from packages/shared/types/basic.ts. -/
structure ChatMessage where
  id : ℕ
  clientId : String
  username : String
  text : String
  timestamp : ℚ
  countryCode : Option String
deriving DecidableEq, Repr

/-- The mutable state of ChatManager.ts: rolling message buffer and id counter. -/
structure ChatState where
  chatMessages : List ChatMessage
  nextMessageId : ℕ
deriving DecidableEq, Repr

/-- ChatManager's initial state (`chatMessages = []`, `nextMessageId = 1`). -/
def initialChatState : ChatState := { chatMessages := [], nextMessageId := 1 }

/-- MAX_CHAT_MESSAGES from ChatManager.ts. -/
def MAX_CHAT_MESSAGES : ℕ := 300

/-- PlaybackControlsPermissionsEnum. -/
inductive Permissions where
  | everyone
  | adminOnly
deriving DecidableEq, Repr

/-- PendingPlayState from RoomManager.ts (the timeout handle and server
reference are operational artefacts with no state content). -/
structure PendingPlay where
  clientsLoaded : List String
  playAction : PlayAction
  initiatorClientId : String
deriving DecidableEq, Repr

/-- Scheduled-action payloads of ScheduledActionSchema (WSBroadcast.ts).
A spatial-config gain entry is (clientId, gain, rampTime). -/
inductive ScheduledPayload where
  | play (audioSource : String) (trackTimeSeconds : ℚ)
  | pause (audioSource : String) (trackTimeSeconds : ℚ)
  | spatialConfig (listeningSource : Position) (gains : List (String × ℚ × ℚ))
  | stopSpatialAudio
  | globalVolumeConfig (volume : ℚ) (rampTime : ℚ)
deriving DecidableEq, Repr

/-- ROOM_EVENT payloads used by the embedded handlers. -/
inductive RoomEventPayload where
  | loadAudioSource (audioSourceToPlay : AudioSource)
  | setAudioSourcesEvent (sources : List AudioSource)
  | chatUpdate (messages : List ChatMessage) (isFullSync : Bool) (newestId : ℕ)
deriving DecidableEq, Repr

/-- Outbound message frames (WSBroadcastSchema). -/
inductive Message where
  | scheduledAction (serverTimeToExecute : ℚ) (payload : ScheduledPayload)
  | roomEvent (payload : RoomEventPayload)
deriving DecidableEq, Repr

/-- An emitted frame, tagged with how it left the server:
`sendBroadcast` to the room topic, or `sendUnicast` to one socket. -/
inductive Outgoing where
  | broadcast (msg : Message)
  | unicast (msg : Message)
deriving DecidableEq, Repr

/-- The per-room mutable state of RoomManager.ts that the verified operations
touch. `clientData` models the insertion-ordered `Map<string, ClientDataType>`;
`wsConnections` models the key set of the connection map. -/
structure RoomState where
  clientData : List ClientData
  wsConnections : List String
  audioSources : List AudioSource
  playbackState : PlaybackState
  globalVolume : ℚ
  playbackControlsPermissions : Permissions
  pendingPlay : Option PendingPlay
  chat : ChatState
  listeningSource : Position
deriving DecidableEq, Repr

/-- A fresh RoomManager as the constructor and field initializers build it. -/
def initialRoomState : RoomState :=
  { clientData := [], wsConnections := [], audioSources := [],
    playbackState := INITIAL_PLAYBACK_STATE, globalVolume := 1,
    playbackControlsPermissions := .adminOnly, pendingPlay := none,
    chat := initialChatState,
    listeningSource := { x := GRID_ORIGIN_X, y := GRID_ORIGIN_Y } }

/-- `this.clientData.get(clientId)` on the insertion-ordered map. -/
def lookupClient (l : List ClientData) (cid : String) : Option ClientData :=
  l.find? (fun c => c.clientId = cid)

/-- `this.clientData.set(c.clientId, c)`: replace the entry with the same key in
place (JS Map keeps the original insertion position), else append. -/
def setClient : List ClientData → ClientData → List ClientData
  | [], c => [c]
  | d :: rest, c =>
    if d.clientId = c.clientId then c :: rest else d :: setClient rest c

/-- `this.wsConnections.set(clientId, ws)` seen through the key set. -/
def wsInsert (l : List String) (cid : String) : List String :=
  if cid ∈ l then l else l ++ [cid]

/-- `getClients()`: clientData values that have an active connection,
in map insertion order. -/
def getClients (st : RoomState) : List ClientData :=
  st.clientData.filter (fun c => c.clientId ∈ st.wsConnections)

/-- Abstraction of `Math.PI` / `Math.cos` / `Math.sin`: floating-point
trigonometry has no exact rational value, and no claim depends on the
geometry it produces, so the three are carried as an explicit parameter. -/
structure TrigModel where
  piQ : ℚ
  cosQ : ℚ → ℚ
  sinQ : ℚ → ℚ

/-- The circle point of `positionClientsInCircle` for index `i` of `total`:
angle = (i/total)·2π − π/2, position = origin + CLIENT_RADIUS·(cos, sin). -/
def circlePoint (tm : TrigModel) (i total : ℕ) : Position :=
  let angle : ℚ := ((i : ℚ) / (total : ℚ)) * 2 * tm.piQ - tm.piQ / 2
  { x := GRID_ORIGIN_X + GRID_CLIENT_RADIUS * tm.cosQ angle,
    y := GRID_ORIGIN_Y + GRID_CLIENT_RADIUS * tm.sinQ angle }

/-- The multi-client loop of `positionClientsInCircle`: assign each client the
circle point of its index. -/
def circleAssign (tm : TrigModel) (total : ℕ) : ℕ → List ClientData → List ClientData
  | _, [] => []
  | i, c :: rest =>
    { c with position := circlePoint tm i total } :: circleAssign tm total (i + 1) rest

/-- `positionClientsInCircle` from the server utils: a single client is centered
at (ORIGIN_X, ORIGIN_Y − 25); otherwise every client goes on the radius-25
circle (zero clients: the early return leaves the empty list untouched). -/
def positionClientsInCircle (tm : TrigModel) (clients : List ClientData) : List ClientData :=
  if clients.length = 1 then
    clients.map (fun c =>
      { c with position := { x := GRID_ORIGIN_X, y := GRID_ORIGIN_Y - 25 } })
  else
    circleAssign tm clients.length 0 clients

/-- In the source, `positionClientsInCircle(this.getClients())` mutates the very
objects stored in the `clientData` map. The embedding writes the repositioned
records back by client id. -/
def repositionConnected (tm : TrigModel) (st : RoomState) : RoomState :=
  let rep := positionClientsInCircle tm (getClients st)
  { st with
    clientData := st.clientData.map (fun c =>
      (rep.find? (fun r => r.clientId = c.clientId)).getD c) }

/-- The record `addClient` (RoomManager.ts lines 314-337) stores: the default
record, with `username, location, isAdmin, joinedAt` restored from a cached
record of the same id, and admin forced when no client is connected. -/
def joinRecord (st : RoomState) (cid username : String) (now : ℚ) : ClientData :=
  let fresh : ClientData :=
    { joinedAt := now, username := username, clientId := cid, isAdmin := false,
      rtt := 0,
      position := { x := GRID_ORIGIN_X, y := GRID_ORIGIN_Y - 25 },
      lastNtpResponse := now, location := none }
  let restored : ClientData :=
    match lookupClient st.clientData cid with
    | some cached =>
      { fresh with username := cached.username, location := cached.location,
                   isAdmin := cached.isAdmin, joinedAt := cached.joinedAt }
    | none => fresh
  if st.wsConnections.isEmpty then { restored with isAdmin := true } else restored

/-- `addClient` (RoomManager.ts): build and store the join record
(`joinRecord`), connect the socket, and reposition everyone. -/
def addClient (tm : TrigModel) (st : RoomState) (cid username : String) (now : ℚ) :
    RoomState :=
  repositionConnected tm
    { st with clientData := setClient st.clientData (joinRecord st cid username now),
              wsConnections := wsInsert st.wsConnections cid }

/-- `setAdmin` (RoomManager.ts): look the target up and overwrite its flag. -/
def setAdmin (st : RoomState) (targetClientId : String) (isAdmin : Bool) : RoomState :=
  match lookupClient st.clientData targetClientId with
  | none => st
  | some c =>
    { st with clientData := setClient st.clientData { c with isAdmin := isAdmin } }

/-- `addAudioSource` (RoomManager.ts): `this.audioSources.push(source)`. -/
def addAudioSource (st : RoomState) (source : AudioSource) : RoomState :=
  { st with audioSources := st.audioSources ++ [source] }

/-- `setAudioSources` (RoomManager.ts): wholesale replacement. -/
def setAudioSources (st : RoomState) (sources : List AudioSource) : RoomState :=
  { st with audioSources := sources }

/-- Result record of `removeAudioSources`. -/
structure RemoveResult where
  updated : List AudioSource
  removedCurrent : Bool
  removedUrl : Option String
deriving DecidableEq, Repr

/-- `removeAudioSources` (RoomManager.ts): filter the urls out of the queue and
reset the playback state exactly when the state is `playing` on a removed url. -/
def removeAudioSources (st : RoomState) (urls : List String) :
    RoomState × RemoveResult :=
  let removingCurrent : Bool :=
    st.playbackState.type = .playing ∧ st.playbackState.audioSource ∈ urls
  let removedUrl : Option String :=
    if removingCurrent then some st.playbackState.audioSource else none
  let newSources := st.audioSources.filter (fun s => s.url ∉ urls)
  let st1 : RoomState :=
    { st with audioSources := newSources,
              playbackState :=
                if removingCurrent then INITIAL_PLAYBACK_STATE else st.playbackState }
  (st1, { updated := newSources, removedCurrent := removingCurrent,
          removedUrl := removedUrl })

/-- `getMaxClientRTT` (RoomManager.ts): default 0 with no clients, else the
running maximum starting from the default. -/
def getMaxClientRTT (st : RoomState) : ℚ :=
  let active := getClients st
  if active.length = 0 then DEFAULT_CLIENT_RTT_MS
  else active.foldl (fun m c => if c.rtt > m then c.rtt else m) DEFAULT_CLIENT_RTT_MS

/-- `getScheduledExecutionTime` (RoomManager.ts):
`epochNow() + calculateScheduleTimeMs(maxRTT) + extraOffsetMs`. -/
def getScheduledExecutionTime (st : RoomState) (now extraOffsetMs : ℚ) : ℚ :=
  now + calculateScheduleTimeMs (getMaxClientRTT st) + extraOffsetMs

/-- `updatePlaybackSchedulePlay` (RoomManager.ts): refuse when the track is not
in the queue, else move to `playing`. -/
def updatePlaybackSchedulePlay (st : RoomState) (playSchema : PlayAction)
    (serverTimeToExecute : ℚ) : RoomState × Bool :=
  if st.audioSources.any (fun s => s.url = playSchema.audioSource) then
    ({ st with playbackState :=
        { type := .playing, audioSource := playSchema.audioSource,
          serverTimeToExecute := serverTimeToExecute,
          trackPositionSeconds := playSchema.trackTimeSeconds } }, true)
  else (st, false)

/-- `updatePlaybackSchedulePause` (RoomManager.ts): a non-empty url missing from
the queue pauses on an empty url and reports failure; otherwise pause with the
given url (the empty url skips validation, JS truthiness). -/
def updatePlaybackSchedulePause (st : RoomState) (pauseSchema : PauseAction)
    (serverTimeToExecute : ℚ) : RoomState × Bool :=
  if pauseSchema.audioSource ≠ "" ∧
      ¬ st.audioSources.any (fun s => s.url = pauseSchema.audioSource) then
    ({ st with playbackState :=
        { type := .paused, audioSource := "",
          serverTimeToExecute := serverTimeToExecute,
          trackPositionSeconds := 0 } }, false)
  else
    ({ st with playbackState :=
        { type := .paused, audioSource := pauseSchema.audioSource,
          serverTimeToExecute := serverTimeToExecute,
          trackPositionSeconds := pauseSchema.trackTimeSeconds } }, true)

/-- Modelled from the spec: the `requireCanMutate` middleware lives in
apps/server/src/websocket/middlewares.ts, which is not among the provided
sources; the spec defines the gate as allowed iff `isAdmin` or
`permissions == EVERYONE`. -/
def canMutate (st : RoomState) (cid : String) : Bool :=
  match lookupClient st.clientData cid with
  | some c => c.isAdmin || st.playbackControlsPermissions = .everyone
  | none => false

/-- `handlePlay` (websocket/handlers/play.ts): compute the schedule time, update
the playback state, and broadcast the scheduled PLAY only on success. The
`requireCanMutate` gate throws on denial, so a denied request emits nothing. -/
def handlePlay (st : RoomState) (cid : String) (message : PlayAction) (now : ℚ) :
    RoomState × List Outgoing :=
  if canMutate st cid then
    let serverTimeToExecute := getScheduledExecutionTime st now 0
    let res := updatePlaybackSchedulePlay st message serverTimeToExecute
    if res.2 then
      (res.1, [.broadcast (.scheduledAction serverTimeToExecute
        (.play message.audioSource message.trackTimeSeconds))])
    else (res.1, [])
  else (st, [])

/-- `handlePause` (websocket/handlers/pause.ts): same shape as `handlePlay`. -/
def handlePause (st : RoomState) (cid : String) (message : PauseAction) (now : ℚ) :
    RoomState × List Outgoing :=
  if canMutate st cid then
    let serverTimeToExecute := getScheduledExecutionTime st now 0
    let res := updatePlaybackSchedulePause st message serverTimeToExecute
    if res.2 then
      (res.1, [.broadcast (.scheduledAction serverTimeToExecute
        (.pause message.audioSource message.trackTimeSeconds))])
    else (res.1, [])
  else (st, [])

/-- `allClientsLoadedPendingSource` (RoomManager.ts). -/
def allClientsLoadedPendingSource (st : RoomState) : Bool :=
  match st.pendingPlay with
  | none => false
  | some pp =>
    let clientCount := (getClients st).length
    clientCount ≠ 0 && pp.clientsLoaded.length = clientCount

/-- `executeScheduledPlay` (RoomManager.ts): consume the pending play, compute
the schedule time, update the playback state, and broadcast only on success. -/
def executeScheduledPlay (st : RoomState) (now : ℚ) : RoomState × List Outgoing :=
  match st.pendingPlay with
  | none => (st, [])
  | some pp =>
    let st1 : RoomState := { st with pendingPlay := none }
    let serverTimeToExecute := getScheduledExecutionTime st1 now 0
    let res := updatePlaybackSchedulePlay st1 pp.playAction serverTimeToExecute
    if res.2 then
      (res.1, [.broadcast (.scheduledAction serverTimeToExecute
        (.play pp.playAction.audioSource pp.playAction.trackTimeSeconds))])
    else (res.1, [])

/-- `initiateAudioSourceLoad` (RoomManager.ts): clear any pending play, drop the
request when the url is not in the queue, else arm the load barrier with the
initiator pre-loaded and broadcast LOAD_AUDIO_SOURCE. -/
def initiateAudioSourceLoad (st : RoomState) (playAction : PlayAction)
    (initiatorClientId : String) : RoomState × List Outgoing :=
  let st0 : RoomState := { st with pendingPlay := none }
  match st0.audioSources.find? (fun s => s.url = playAction.audioSource) with
  | none => (st0, [])
  | some audioSource =>
    ({ st0 with pendingPlay := some ({
        clientsLoaded := [initiatorClientId], playAction := playAction,
        initiatorClientId := initiatorClientId }) },
     [.broadcast (.roomEvent (.loadAudioSource audioSource))])

/-- Set-insert on the `clientsLoaded : Set<string>`. -/
def loadedInsert (l : List String) (cid : String) : List String :=
  if cid ∈ l then l else l ++ [cid]

/-- `processClientLoadedAudioSource` (RoomManager.ts): record the loader and
commit the play when everyone connected has loaded. -/
def processClientLoadedAudioSource (st : RoomState) (cid : String) (now : ℚ) :
    RoomState × List Outgoing :=
  match st.pendingPlay with
  | none => (st, [])
  | some pp =>
    let st1 : RoomState :=
      { st with pendingPlay := some ({ pp with
        clientsLoaded := loadedInsert pp.clientsLoaded cid }) }
    if allClientsLoadedPendingSource st1 then executeScheduledPlay st1 now
    else (st1, [])

/-- The middle of `removeClient` (RoomManager.ts lines 358-383), applied to the
state with the leaver's connection already removed: when clients remain,
reposition them and — when no admin is left connected — promote the client at
index `Math.floor(Math.random() * n)` (`Math.random()` enters as
`randFrac ∈ [0,1)`; the source's `if (newAdmin)` guard is the `match`). -/
def promoteIfNoAdmin (tm : TrigModel) (st1 : RoomState) (randFrac : ℚ) : RoomState :=
  let active := getClients st1
  if 0 < active.length then
    let st2 := repositionConnected tm st1
    let active2 := getClients st2
    let remainingAdmins := active2.filter (fun c => c.isAdmin)
    if remainingAdmins.length = 0 then
      let randomIndex : ℕ := (⌊randFrac * (active2.length : ℚ)⌋).toNat
      match active2[randomIndex]? with
      | some newAdmin =>
        { st2 with clientData :=
            setClient st2.clientData { newAdmin with isAdmin := true } }
      | none => st2
    else st2
  else st1

/-- The trailing block of `removeClient` (RoomManager.ts lines 385-398): drop
the leaver from a pending load barrier's loaded set and commit the play when
every remaining connected client has loaded. -/
def removeClientBarrier (st3 : RoomState) (cid : String) (now : ℚ) :
    RoomState × List Outgoing :=
  match st3.pendingPlay with
  | none => (st3, [])
  | some pp =>
    let st4 : RoomState :=
      { st3 with pendingPlay := some ({ pp with
        clientsLoaded := pp.clientsLoaded.erase cid }) }
    if allClientsLoadedPendingSource st4 then executeScheduledPlay st4 now
    else (st4, [])

/-- `removeClient` (RoomManager.ts): drop the connection but keep the cached
record; reposition the rest and promote a random remaining client when no admin
is left connected (`promoteIfNoAdmin`); then drop the leaver from a pending
load barrier and re-check the barrier (`removeClientBarrier`). -/
def removeClient (tm : TrigModel) (st : RoomState) (cid : String) (randFrac now : ℚ) :
    RoomState × List Outgoing :=
  removeClientBarrier
    (promoteIfNoAdmin tm { st with wsConnections := st.wsConnections.erase cid } randFrac)
    cid now

/-- Round a rational to the nearest integer, ties to even: the rounding IEEE-754
prescribes for the scaled significand. -/
def rne (y : ℚ) : ℤ :=
  if y - (⌊y⌋ : ℚ) < 1/2 then ⌊y⌋
  else if 1/2 < y - (⌊y⌋ : ℚ) then ⌊y⌋ + 1
  else if ⌊y⌋ % 2 = 0 then ⌊y⌋ else ⌊y⌋ + 1

/-- Correct rounding of a rational to IEEE-754 binary64 (round to nearest, ties
to even), the arithmetic JS numbers use: scale the magnitude by the ulp exponent
`Int.log 2 |x| - 52` of its binade, round the 53-bit significand to nearest-even,
and scale back. Subnormal underflow and overflow to infinity lie far outside the
magnitudes the RTT computation handles and are not modelled. -/
def fl64 (x : ℚ) : ℚ :=
  if x = 0 then 0
  else
    let E : ℤ := Int.log 2 |x|
    let r : ℚ := (rne (|x| / 2 ^ (E - 52)) : ℚ) * 2 ^ (E - 52)
    if 0 < x then r else -r

/-- The binary64 number the literal `0.2` (`alpha` in `processNTPRequestFrom`)
denotes: the double nearest to 1/5. -/
def ALPHA64 : ℚ := fl64 (1/5)

/-- The binary64 evaluation of `client.rtt * (1 - alpha) + clientRTT * alpha`
(RoomManager.ts line 633): every operation on doubles rounds its exact result
to the nearest double. -/
def emaUpdate64 (prev sample : ℚ) : ℚ :=
  fl64 (fl64 (prev * fl64 (1 - ALPHA64)) + fl64 (sample * ALPHA64))

/-- `processNTPRequestFrom` (RoomManager.ts): stamp the heartbeat and smooth the
RTT with `alpha = 0.2` in binary64 arithmetic (the first positive sample
replaces directly; a stored sample is already a double, so the assignment is
exact). -/
def processNTPRequestFrom (st : RoomState) (cid : String) (clientRTT : Option ℚ)
    (now : ℚ) : RoomState :=
  match lookupClient st.clientData cid with
  | none => st
  | some client =>
    let c1 : ClientData := { client with lastNtpResponse := now }
    let c2 : ClientData :=
      match clientRTT with
      | some sample =>
        if sample > 0 then
          { c1 with rtt :=
              if c1.rtt > 0 then emaUpdate64 c1.rtt sample else sample }
        else c1
      | none => c1
    { st with clientData := setClient st.clientData c2 }

/-- `setGlobalVolume` (RoomManager.ts): clamp to [0,1] and broadcast
GLOBAL_VOLUME_CONFIG with `serverTimeToExecute = epochNow()`. -/
def setGlobalVolume (st : RoomState) (volume now : ℚ) : RoomState × List Outgoing :=
  let v := max 0 (min 1 volume)
  ({ st with globalVolume := v },
   [.broadcast (.scheduledAction now (.globalVolumeConfig v (1/10)))])

/-- Modelled from the spec: `calculateGainFromDistanceToSource` lives in
apps/server/src/spatial.ts, which is not among the provided sources; it is a
pure function of the two positions, abstracted as a parameter because no claim
depends on the gain values. -/
def GainModel : Type := Position → Position → ℚ

/-- `_calculateGainsAndBroadcast` (RoomManager.ts): the one-shot SPATIAL_CONFIG
broadcast with `serverTimeToExecute = epochNow() + 0`. -/
def calculateGainsAndBroadcast (gm : GainModel) (st : RoomState) (now : ℚ) :
    List Outgoing :=
  let gains := (getClients st).map (fun c =>
    (c.clientId, gm c.position st.listeningSource, (1/4 : ℚ)))
  [.broadcast (.scheduledAction (now + 0)
    (.spatialConfig st.listeningSource gains))]

/-- One tick of the `startSpatialAudio` interval (RoomManager.ts): rotate the
listening source on the slow circle (angle = loopCount·π/30) and broadcast
SPATIAL_CONFIG with a dynamically scheduled execution time. -/
def spatialTickBroadcast (tm : TrigModel) (gm : GainModel) (st : RoomState)
    (loopCount : ℕ) (now : ℚ) : RoomState × List Outgoing :=
  let clients := getClients st
  if clients.length = 0 then (st, [])
  else
    let angle : ℚ := (loopCount : ℚ) * tm.piQ / 30
    let ls : Position :=
      { x := GRID_ORIGIN_X + 25 * tm.cosQ angle,
        y := GRID_ORIGIN_Y + 25 * tm.sinQ angle }
    let st1 : RoomState := { st with listeningSource := ls }
    let gains := clients.map (fun c =>
      (c.clientId, gm c.position ls, (1/4 : ℚ)))
    (st1, [.broadcast (.scheduledAction (getScheduledExecutionTime st1 now 0)
      (.spatialConfig ls gains))])

/-- `syncClient` (RoomManager.ts): paused is a no-op; playing unicasts one
scheduled PLAY with an extra 1500 ms offset and the predicted track position.
The method reads room state but never writes it. -/
def syncClient (st : RoomState) (now : ℚ) : List Outgoing :=
  if st.playbackState.type = .paused then []
  else
    let serverTimeWhenPlaybackStarted := st.playbackState.serverTimeToExecute
    let trackPositionSecondsWhenPlaybackStarted := st.playbackState.trackPositionSeconds
    let serverTimeToExecute := getScheduledExecutionTime st now 1500
    let timeElapsedAtExecution := serverTimeToExecute - serverTimeWhenPlaybackStarted
    let resumeTrackTimeSeconds :=
      trackPositionSecondsWhenPlaybackStarted + timeElapsedAtExecution / 1000
    [.unicast (.scheduledAction serverTimeToExecute
      (.play st.playbackState.audioSource resumeTrackTimeSeconds))]

/-- JS `String.prototype.trim()`: drop Unicode whitespace from both ends
(written over the character list so that it is kernel-executable; Lean's
built-in `String.trim` has the same meaning but does not reduce). -/
def jsTrim (s : String) : String :=
  ⟨((s.data.dropWhile Char.isWhitespace).reverse.dropWhile Char.isWhitespace).reverse⟩

/-- `ChatManager.addMessage`: sanitize (the external sanitize-html call with
tags, attributes and schemes all disallowed is abstracted as the `sanitize`
parameter), trim, throw on empty, else append with the next id and evict the
oldest beyond the 300 cap. The thrown branch precedes every mutation. -/
def addMessage (sanitize : String → String) (chat : ChatState)
    (client : ClientData) (text : String) (now : ℚ) :
    Except String (ChatState × ChatMessage) :=
  let sanitizedText := jsTrim (sanitize text)
  if sanitizedText = "" then .error "Chat message cannot be empty"
  else
    let message : ChatMessage :=
      { id := chat.nextMessageId, clientId := client.clientId,
        username := client.username, text := sanitizedText, timestamp := now,
        countryCode := client.location.map (fun l => l.countryCode) }
    let pushed := chat.chatMessages ++ [message]
    let kept := if MAX_CHAT_MESSAGES < pushed.length then pushed.tail else pushed
    (.ok ({ chatMessages := kept, nextMessageId := chat.nextMessageId + 1 }, message))

/-- `ChatManager.getNewestId`. -/
def getNewestChatId (chat : ChatState) : ℕ :=
  match chat.chatMessages.getLast? with
  | none => 0
  | some m => m.id

/-- `RoomManager.addChatMessage`: throw when the sender has no record. -/
def addChatMessage (sanitize : String → String) (st : RoomState) (cid text : String)
    (now : ℚ) : Except String (RoomState × ChatMessage) :=
  match lookupClient st.clientData cid with
  | none => .error "Client not found in room"
  | some client =>
    match addMessage sanitize st.chat client text now with
    | .error e => .error e
    | .ok (chat1, m) => .ok ({ st with chat := chat1 }, m)

/-- `handleSendChatMessage` (websocket handler): on success broadcast the single
new message as an incremental CHAT_UPDATE; the catch block swallows the throw,
leaving the room untouched and nothing sent. -/
def handleSendChatMessage (sanitize : String → String) (st : RoomState)
    (cid text : String) (now : ℚ) : RoomState × List Outgoing :=
  match addChatMessage sanitize st cid text now with
  | .error _ => (st, [])
  | .ok (st1, m) =>
    (st1, [.broadcast (.roomEvent
      (.chatUpdate [m] false (getNewestChatId st1.chat)))])

/-- Everything of a client record except its (geometry-dependent) position:
(username, clientId, rtt, lastNtpResponse, isAdmin, location, joinedAt).
`positionClientsInCircle` only rewrites positions, so it preserves this. -/
def coreFields (c : ClientData) :
    String × String × ℚ × ℚ × Bool × Option Location × ℚ :=
  (c.username, c.clientId, c.rtt, c.lastNtpResponse, c.isAdmin, c.location, c.joinedAt)

/-- Invariant (I1) of the spec for one room: whenever at least one client is
connected, some connected client is an admin. -/
def adminInvariant (st : RoomState) : Prop :=
  getClients st ≠ [] → ∃ c ∈ getClients st, c.isAdmin = true

/-- A trigonometry instantiation used for concrete evaluations; the admin and
record-field claims do not depend on the geometry it produces. -/
def tmZero : TrigModel :=
  { piQ := 0, cosQ := fun _ => 0, sinQ := fun _ => 0 }

/-- A gain-model instantiation used for concrete evaluations. -/
def gmZero : GainModel := fun _ _ => 1

/-- A concrete connected admin client, for concrete evaluations. -/
def exAdminClient : ClientData :=
  { username := "alice", clientId := "a", rtt := 10,
    position := { x := 50, y := 50 }, lastNtpResponse := 0, isAdmin := true,
    location := none, joinedAt := 0 }

/-- A concrete room: one connected admin, two queued tracks. -/
def exRoom : RoomState :=
  { initialRoomState with
    clientData := [exAdminClient], wsConnections := ["a"],
    audioSources := [{ url := "u" }, { url := "v" }] }

/-- `exRoom`, paused on the queued track "u". -/
def exPausedRoom : RoomState :=
  { exRoom with
    playbackState := { type := .paused, audioSource := "u",
                       serverTimeToExecute := 7, trackPositionSeconds := 3 } }

/-- `exRoom`, playing the queued track "u". -/
def exPlayingRoom : RoomState :=
  { exRoom with
    playbackState := { type := .playing, audioSource := "u",
                       serverTimeToExecute := 500, trackPositionSeconds := 10 } }

/-- A cached, disconnected, non-admin client record, for concrete evaluations. -/
def cachedNonAdmin : ClientData :=
  { username := "bob", clientId := "b", rtt := 2,
    position := { x := 50, y := 50 }, lastNtpResponse := 0, isAdmin := false,
    location := none, joinedAt := 1 }

/-- A room whose only client record is cached (disconnected). -/
def exCacheRoom : RoomState :=
  { initialRoomState with clientData := [cachedNonAdmin], wsConnections := [] }

/-- A connected client with no RTT measurement yet, for the NTP evaluations. -/
def exNtpClient : ClientData :=
  { username := "nina", clientId := "n", rtt := 0,
    position := { x := 50, y := 50 }, lastNtpResponse := 0, isAdmin := true,
    location := none, joinedAt := 0 }

/-- A room holding only `exNtpClient`, for the NTP evaluations. -/
def exNtpRoom : RoomState :=
  { initialRoomState with clientData := [exNtpClient], wsConnections := ["n"] }

end Beatsync

namespace Beatsync

/-! ## Helper lemmas -/

/-- `setClient` stores the record so that a lookup by its id finds exactly it. -/
theorem lookupClient_setClient_self (l : List ClientData) (c : ClientData) :
    lookupClient (setClient l c) c.clientId = some c := by
  induction l with
  | nil => simp [setClient, lookupClient]
  | cons d rest ih =>
    simp only [setClient]
    by_cases h : d.clientId = c.clientId
    · simp [lookupClient, h]
    · rw [if_neg h]
      simpa [lookupClient, List.find?_cons, h] using ih

/-! ### Binary64 rounding facts -/

/-- `rne` never moves a value by more than one half. -/
theorem rne_bounds (y : ℚ) : y - 1/2 ≤ (rne y : ℚ) ∧ (rne y : ℚ) ≤ y + 1/2 := by
  have h0 := Int.floor_le y
  have h1 := Int.lt_floor_add_one y
  simp only [rne]
  split_ifs with ha hb hc
  · exact ⟨by linarith, by linarith⟩
  · rw [not_lt] at ha
    exact ⟨by push_cast; linarith, by push_cast; linarith⟩
  · rw [not_lt] at ha hb
    exact ⟨by linarith, by linarith⟩
  · rw [not_lt] at ha hb
    exact ⟨by push_cast; linarith, by push_cast; linarith⟩

/-- `rne` at a point strictly below the halfway mark keeps the floor. -/
theorem rne_eq_floor (y : ℚ) (f : ℤ) (hf : ⌊y⌋ = f) (h : y - (f:ℚ) < 1/2) :
    rne y = f := by
  simp only [rne, hf, if_pos h]

/-- `rne` at a point strictly above the halfway mark rounds up. -/
theorem rne_eq_up (y : ℚ) (f : ℤ) (hf : ⌊y⌋ = f) (h : 1/2 < y - (f:ℚ)) :
    rne y = f + 1 := by
  simp only [rne, hf]
  rw [if_neg (by linarith), if_pos h]

/-- `rne` at an exact tie whose floor is odd rounds up to the even neighbor. -/
theorem rne_tie_odd (y : ℚ) (f : ℤ) (hf : ⌊y⌋ = f) (h : y - (f:ℚ) = 1/2)
    (hodd : ¬ f % 2 = 0) : rne y = f + 1 := by
  simp only [rne, hf]
  rw [if_neg (by rw [h]; norm_num), if_neg (by rw [h]; norm_num), if_neg hodd]

/-- The two-sided binade sandwich pins `Int.log 2`. -/
theorem log2_eq_of_sandwich (x : ℚ) (E : ℤ) (hx : 0 < x)
    (h1 : (2:ℚ) ^ E ≤ x) (h2 : x < (2:ℚ) ^ (E + 1)) :
    Int.log 2 x = E := by
  have hle : E ≤ Int.log 2 x := by
    rw [← Int.zpow_le_iff_le_log one_lt_two hx]
    push_cast
    exact h1
  have hlt : Int.log 2 x < E + 1 := by
    rw [← Int.lt_zpow_iff_log_lt one_lt_two hx]
    push_cast
    exact h2
  omega

/-- On positives `fl64` is the rounded significand rescaled by the ulp. -/
theorem fl64_pos_eq (x : ℚ) (hx : 0 < x) :
    fl64 x = (rne (x / 2 ^ (Int.log 2 x - 52)) : ℚ) * 2 ^ (Int.log 2 x - 52) := by
  simp only [fl64]
  rw [if_neg (ne_of_gt hx), abs_of_pos hx, if_pos hx]

/-- Evaluate `fl64` from an explicit binade and rounded significand. -/
theorem fl64_eval (x : ℚ) (E m : ℤ) (hx : 0 < x)
    (h1 : (2:ℚ) ^ E ≤ x) (h2 : x < (2:ℚ) ^ (E + 1))
    (hm : rne (x / 2 ^ (E - 52)) = m) :
    fl64 x = (m : ℚ) * 2 ^ (E - 52) := by
  rw [fl64_pos_eq x hx, log2_eq_of_sandwich x E hx h1 h2, hm]

/-- The double the literal `0.2` denotes: the significand of 1/5 rounds up. -/
theorem ALPHA64_eq : ALPHA64 = 7205759403792794 * (2:ℚ) ^ (-55 : ℤ) := by
  have hf : ⌊(36028797018963968/5 : ℚ)⌋ = 7205759403792793 := by
    rw [Int.floor_eq_iff]
    norm_num
  have hy : (1/5 : ℚ) / (2:ℚ) ^ ((-3 : ℤ) - 52) = 36028797018963968 / 5 := by
    norm_num
  have hr : rne ((1/5 : ℚ) / (2:ℚ) ^ ((-3 : ℤ) - 52)) = 7205759403792794 := by
    rw [hy, rne_eq_up (36028797018963968/5 : ℚ) 7205759403792793 hf (by norm_num)]
    decide
  have h := fl64_eval (1/5) (-3) 7205759403792794 (by norm_num) (by norm_num)
    (by norm_num) hr
  unfold ALPHA64
  rw [h]
  norm_num

/-- `1 - 0.2` in doubles is exactly the double `0.8`: the scaled significand
lands on a halfway tie with odd floor and rounds to the even neighbor. -/
theorem OMA64_eq : fl64 (1 - ALPHA64) = 7205759403792794 * (2:ℚ) ^ (-53 : ℤ) := by
  rw [ALPHA64_eq]
  have hx : (1:ℚ) - 7205759403792794 * (2:ℚ) ^ (-55 : ℤ)
      = 28823037615171174 / 36028797018963968 := by norm_num
  rw [hx]
  have hf : ⌊(14411518807585587/2 : ℚ)⌋ = 7205759403792793 := by
    rw [Int.floor_eq_iff]
    norm_num
  have hy : (28823037615171174 / 36028797018963968 : ℚ) / (2:ℚ) ^ ((-1 : ℤ) - 52)
      = 14411518807585587 / 2 := by norm_num
  have hr : rne ((28823037615171174 / 36028797018963968 : ℚ) / (2:ℚ) ^ ((-1 : ℤ) - 52))
      = 7205759403792794 := by
    rw [hy, rne_tie_odd (14411518807585587/2 : ℚ) 7205759403792793 hf (by norm_num)
      (by decide)]
    decide
  have h := fl64_eval (28823037615171174 / 36028797018963968 : ℚ) (-1) 7205759403792794
    (by norm_num) (by norm_num) (by norm_num) hr
  rw [h]
  norm_num

/-- `3 * 0.8` in doubles: a halfway tie with odd floor rounds up and gives
`2.4000000000000004`. -/
theorem fl64_three_mul_oma :
    fl64 ((3:ℚ) * (7205759403792794 * (2:ℚ) ^ (-53 : ℤ)))
      = 5404319552844596 * (2:ℚ) ^ (-51 : ℤ) := by
  have hx : (3:ℚ) * (7205759403792794 * (2:ℚ) ^ (-53 : ℤ))
      = 21617278211378382 / 9007199254740992 := by norm_num
  rw [hx]
  have hf : ⌊(10808639105689191/2 : ℚ)⌋ = 5404319552844595 := by
    rw [Int.floor_eq_iff]
    norm_num
  have hy : (21617278211378382 / 9007199254740992 : ℚ) / (2:ℚ) ^ ((1 : ℤ) - 52)
      = 10808639105689191 / 2 := by norm_num
  have hr : rne ((21617278211378382 / 9007199254740992 : ℚ) / (2:ℚ) ^ ((1 : ℤ) - 52))
      = 5404319552844596 := by
    rw [hy, rne_tie_odd (10808639105689191/2 : ℚ) 5404319552844595 hf (by norm_num)
      (by decide)]
    decide
  have h := fl64_eval (21617278211378382 / 9007199254740992 : ℚ) 1 5404319552844596
    (by norm_num) (by norm_num) (by norm_num) hr
  rw [h]
  norm_num

/-- `3 * 0.2` in doubles: a halfway tie with odd floor rounds up and gives
`0.6000000000000001`. -/
theorem fl64_three_mul_alpha :
    fl64 ((3:ℚ) * (7205759403792794 * (2:ℚ) ^ (-55 : ℤ)))
      = 5404319552844596 * (2:ℚ) ^ (-53 : ℤ) := by
  have hx : (3:ℚ) * (7205759403792794 * (2:ℚ) ^ (-55 : ℤ))
      = 21617278211378382 / 36028797018963968 := by norm_num
  rw [hx]
  have hf : ⌊(10808639105689191/2 : ℚ)⌋ = 5404319552844595 := by
    rw [Int.floor_eq_iff]
    norm_num
  have hy : (21617278211378382 / 36028797018963968 : ℚ) / (2:ℚ) ^ ((-1 : ℤ) - 52)
      = 10808639105689191 / 2 := by norm_num
  have hr : rne ((21617278211378382 / 36028797018963968 : ℚ) / (2:ℚ) ^ ((-1 : ℤ) - 52))
      = 5404319552844596 := by
    rw [hy, rne_tie_odd (10808639105689191/2 : ℚ) 5404319552844595 hf (by norm_num)
      (by decide)]
    decide
  have h := fl64_eval (21617278211378382 / 36028797018963968 : ℚ) (-1) 5404319552844596
    (by norm_num) (by norm_num) (by norm_num) hr
  rw [h]
  norm_num

/-- `2.4000000000000004 + 0.6000000000000001` in doubles: the exact sum is
already representable and equals `3 + 2^-51`. -/
theorem fl64_sum_eq :
    fl64 (5404319552844596 * (2:ℚ) ^ (-51 : ℤ) + 5404319552844596 * (2:ℚ) ^ (-53 : ℤ))
      = 6755399441055745 * (2:ℚ) ^ (-51 : ℤ) := by
  have hx : 5404319552844596 * (2:ℚ) ^ (-51 : ℤ) + 5404319552844596 * (2:ℚ) ^ (-53 : ℤ)
      = 6755399441055745 / 2251799813685248 := by norm_num
  rw [hx]
  have hf : ⌊(6755399441055745 : ℚ)⌋ = 6755399441055745 := by
    rw [Int.floor_eq_iff]
    norm_num
  have hy : (6755399441055745 / 2251799813685248 : ℚ) / (2:ℚ) ^ ((1 : ℤ) - 52)
      = 6755399441055745 := by norm_num
  have hr : rne ((6755399441055745 / 2251799813685248 : ℚ) / (2:ℚ) ^ ((1 : ℤ) - 52))
      = 6755399441055745 := by
    rw [hy, rne_eq_floor (6755399441055745 : ℚ) 6755399441055745 hf (by norm_num)]
  have h := fl64_eval (6755399441055745 / 2251799813685248 : ℚ) 1 6755399441055745
    (by norm_num) (by norm_num) (by norm_num) hr
  rw [h]
  norm_num

/-- The binary64 EMA at `prev = sample = 3` overshoots to
`3 + 2^-51 = 3.0000000000000004`. -/
theorem emaUpdate64_three_three : emaUpdate64 3 3 = 3 + (2:ℚ) ^ (-51 : ℤ) := by
  unfold emaUpdate64
  rw [OMA64_eq, ALPHA64_eq, fl64_three_mul_oma, fl64_three_mul_alpha, fl64_sum_eq]
  norm_num

/-- Correct rounding keeps a positive rational within half an ulp, hence within
relative error `2^-53`. -/
theorem fl64_bounds (x : ℚ) (hx : 0 < x) :
    x * (1 - (2:ℚ) ^ (-53 : ℤ)) ≤ fl64 x ∧ fl64 x ≤ x * (1 + (2:ℚ) ^ (-53 : ℤ)) := by
  have hE : (2:ℚ) ^ Int.log 2 x ≤ x := by
    have h := Int.zpow_log_le_self one_lt_two hx
    push_cast at h
    exact h
  have hs : (0:ℚ) < 2 ^ (Int.log 2 x - 52) := zpow_pos (by norm_num) _
  obtain ⟨hl, hr⟩ := rne_bounds (x / 2 ^ (Int.log 2 x - 52))
  have heq := fl64_pos_eq x hx
  have hdiv : x / 2 ^ (Int.log 2 x - 52) * 2 ^ (Int.log 2 x - 52) = x :=
    div_mul_cancel₀ x (ne_of_gt hs)
  have hls := mul_le_mul_of_nonneg_right hl hs.le
  have hrs := mul_le_mul_of_nonneg_right hr hs.le
  rw [sub_mul, hdiv] at hls
  rw [add_mul, hdiv] at hrs
  have hhalf : (1/2 : ℚ) * 2 ^ (Int.log 2 x - 52) = 2 ^ Int.log 2 x * 2 ^ (-53 : ℤ) := by
    rw [show (1/2 : ℚ) = 2 ^ (-1 : ℤ) by norm_num,
        ← zpow_add₀ (two_ne_zero) (-1 : ℤ) (Int.log 2 x - 52),
        ← zpow_add₀ (two_ne_zero) (Int.log 2 x) (-53 : ℤ)]
    congr 1
    omega
  have hulp : (1/2 : ℚ) * 2 ^ (Int.log 2 x - 52) ≤ x * 2 ^ (-53 : ℤ) := by
    rw [hhalf]
    exact mul_le_mul_of_nonneg_right hE (zpow_pos (by norm_num) _).le
  constructor
  · rw [heq]
    nlinarith [hls, hulp]
  · rw [heq]
    nlinarith [hrs, hulp]

/-- Correct rounding preserves strict positivity. -/
theorem fl64_pos (x : ℚ) (hx : 0 < x) : 0 < fl64 x := by
  have h := (fl64_bounds x hx).1
  have h53 : (2:ℚ) ^ (-53 : ℤ) < 1 := by norm_num
  have := mul_pos hx (sub_pos.mpr h53)
  linarith

/-- Arithmetic core of the EMA error bound: three correctly-rounded operations
whose coefficients sum to `1 + 2^-54` keep the result within relative slack
`2^-51` of the `[min, max]` envelope. -/
theorem ema_bounds_core (m M c8 c2 p s a b r : ℚ)
    (hmp : m ≤ p) (hms : m ≤ s) (hpM : p ≤ M) (hsM : s ≤ M) (hm : 0 < m)
    (hc8 : 0 < c8) (hc2 : 0 < c2)
    (hsum : c8 + c2 = 1 + 1/18014398509481984)
    (ha1 : p * c8 * (1 - 1/9007199254740992) ≤ a)
    (ha2 : a ≤ p * c8 * (1 + 1/9007199254740992))
    (hb1 : s * c2 * (1 - 1/9007199254740992) ≤ b)
    (hb2 : b ≤ s * c2 * (1 + 1/9007199254740992))
    (hr1 : (a + b) * (1 - 1/9007199254740992) ≤ r)
    (hr2 : r ≤ (a + b) * (1 + 1/9007199254740992)) :
    m * (1 - 1/2251799813685248) ≤ r ∧ r ≤ M * (1 + 1/2251799813685248) := by
  have hMpos : 0 < M := lt_of_lt_of_le hm (le_trans hmp hpM)
  have hdp : (0:ℚ) ≤ 1 + 1/9007199254740992 := by norm_num
  have hdm : (0:ℚ) ≤ 1 - 1/9007199254740992 := by norm_num
  constructor
  · have h1 : m * c8 * (1 - 1/9007199254740992) ≤ a :=
      le_trans (mul_le_mul_of_nonneg_right
        (mul_le_mul_of_nonneg_right hmp hc8.le) hdm) ha1
    have h2 : m * c2 * (1 - 1/9007199254740992) ≤ b :=
      le_trans (mul_le_mul_of_nonneg_right
        (mul_le_mul_of_nonneg_right hms hc2.le) hdm) hb1
    have h3 : m * (1 + 1/18014398509481984) * (1 - 1/9007199254740992) ≤ a + b := by
      have hadd := add_le_add h1 h2
      calc m * (1 + 1/18014398509481984) * (1 - 1/9007199254740992)
          = m * (c8 + c2) * (1 - 1/9007199254740992) := by rw [hsum]
        _ = m * c8 * (1 - 1/9007199254740992) + m * c2 * (1 - 1/9007199254740992) := by
            ring
        _ ≤ a + b := hadd
    have h4 : m * (1 + 1/18014398509481984) * (1 - 1/9007199254740992)
        * (1 - 1/9007199254740992) ≤ r :=
      le_trans (mul_le_mul_of_nonneg_right h3 hdm) hr1
    have hcnum : (1 - 1/2251799813685248 : ℚ)
        ≤ (1 + 1/18014398509481984) * (1 - 1/9007199254740992)
          * (1 - 1/9007199254740992) := by norm_num
    have h5 := mul_le_mul_of_nonneg_left hcnum hm.le
    nlinarith [h4, h5]
  · have h1 : a ≤ M * c8 * (1 + 1/9007199254740992) :=
      le_trans ha2 (mul_le_mul_of_nonneg_right
        (mul_le_mul_of_nonneg_right hpM hc8.le) hdp)
    have h2 : b ≤ M * c2 * (1 + 1/9007199254740992) :=
      le_trans hb2 (mul_le_mul_of_nonneg_right
        (mul_le_mul_of_nonneg_right hsM hc2.le) hdp)
    have h3 : a + b ≤ M * (1 + 1/18014398509481984) * (1 + 1/9007199254740992) := by
      have hadd := add_le_add h1 h2
      calc a + b
          ≤ M * c8 * (1 + 1/9007199254740992) + M * c2 * (1 + 1/9007199254740992) := hadd
        _ = M * (c8 + c2) * (1 + 1/9007199254740992) := by ring
        _ = M * (1 + 1/18014398509481984) * (1 + 1/9007199254740992) := by rw [hsum]
    have h4 : r ≤ M * (1 + 1/18014398509481984) * (1 + 1/9007199254740992)
        * (1 + 1/9007199254740992) :=
      le_trans hr2 (mul_le_mul_of_nonneg_right h3 hdp)
    have hcnum : ((1 + 1/18014398509481984) * (1 + 1/9007199254740992)
          * (1 + 1/9007199254740992) : ℚ)
        ≤ 1 + 1/2251799813685248 := by norm_num
    have h5 := mul_le_mul_of_nonneg_left hcnum hMpos.le
    nlinarith [h4, h5]

/-- The binary64 EMA stays within the `[min, max]` envelope relaxed by the
relative slack `2^-51`. -/
theorem emaUpdate64_bounds (prev sample : ℚ) (hp : 0 < prev) (hs : 0 < sample) :
    min prev sample * (1 - (2:ℚ) ^ (-51 : ℤ)) ≤ emaUpdate64 prev sample ∧
    emaUpdate64 prev sample ≤ max prev sample * (1 + (2:ℚ) ^ (-51 : ℤ)) := by
  have hc8v : fl64 (1 - ALPHA64) = 7205759403792794 / 9007199254740992 := by
    rw [OMA64_eq]
    norm_num
  have hc2v : ALPHA64 = 7205759403792794 / 36028797018963968 := by
    rw [ALPHA64_eq]
    norm_num
  have hc8 : 0 < fl64 (1 - ALPHA64) := by
    rw [hc8v]
    norm_num
  have hc2 : 0 < ALPHA64 := by
    rw [hc2v]
    norm_num
  have hsum : fl64 (1 - ALPHA64) + ALPHA64 = 1 + 1/18014398509481984 := by
    rw [hc8v, hc2v]
    norm_num
  have hxa : 0 < prev * fl64 (1 - ALPHA64) := mul_pos hp hc8
  have hxb : 0 < sample * ALPHA64 := mul_pos hs hc2
  have ha := fl64_bounds (prev * fl64 (1 - ALPHA64)) hxa
  have hb := fl64_bounds (sample * ALPHA64) hxb
  have hab : 0 < fl64 (prev * fl64 (1 - ALPHA64)) + fl64 (sample * ALPHA64) :=
    add_pos (fl64_pos _ hxa) (fl64_pos _ hxb)
  have hrr := fl64_bounds _ hab
  have h53 : (2:ℚ) ^ (-53 : ℤ) = 1/9007199254740992 := by norm_num
  have h51 : (2:ℚ) ^ (-51 : ℤ) = 1/2251799813685248 := by norm_num
  rw [h53] at ha hb hrr
  rw [h51]
  exact ema_bounds_core (min prev sample) (max prev sample)
    (fl64 (1 - ALPHA64)) ALPHA64 prev sample
    (fl64 (prev * fl64 (1 - ALPHA64))) (fl64 (sample * ALPHA64))
    (fl64 (fl64 (prev * fl64 (1 - ALPHA64)) + fl64 (sample * ALPHA64)))
    (min_le_left _ _) (min_le_right _ _) (le_max_left _ _) (le_max_right _ _)
    (lt_min hp hs) hc8 hc2 hsum ha.1 ha.2 hb.1 hb.2 hrr.1 hrr.2

/-- One NTP step on a looked-up client with positive stored rtt and positive
sample re-stores the record with the binary64 EMA'd rtt. -/
theorem processNTPRequestFrom_pos_step (st : RoomState) (cid : String) (c : ClientData)
    (sample now : ℚ) (hc : lookupClient st.clientData cid = some c)
    (hpos : 0 < c.rtt) (hs : 0 < sample) :
    lookupClient (processNTPRequestFrom st cid (some sample) now).clientData cid
      = some { c with lastNtpResponse := now, rtt := emaUpdate64 c.rtt sample } := by
  have hcid : c.clientId = cid := by
    have h := List.find?_some hc
    simpa using h
  unfold processNTPRequestFrom
  rw [hc]
  simp only [if_pos hs, if_pos hpos]
  rw [← hcid]
  exact lookupClient_setClient_self st.clientData _

/-! ## Claim C4 -/

/-- Claim C4 counterexample: with the playback state paused on "u" and "u" in
the queue, `removeAudioSources(["u"])` leaves the playback state untouched
instead of resetting it — the reset fires only for a playing state. -/
theorem removeAudioSources_paused_untouched :
    exPausedRoom.playbackState.type = .paused ∧
    exPausedRoom.playbackState.audioSource = "u" ∧
    ({ url := "u" } : AudioSource) ∈ exPausedRoom.audioSources ∧
    (removeAudioSources exPausedRoom ["u"]).1.playbackState ≠ INITIAL_PLAYBACK_STATE ∧
    (removeAudioSources exPausedRoom ["u"]).1.playbackState = exPausedRoom.playbackState := by
  decide

/-- Claim C4 (amended): when the playback state is `playing` on a url contained
in the removal list, `removeAudioSources` resets the playback state to the
initial state, and (for every call) the resulting queue consists of exactly the
previous entries whose url is not listed, in their previous order. -/
theorem removeAudioSources_playing_reset (st : RoomState) (urls : List String)
    (hplay : st.playbackState.type = .playing)
    (hmem : st.playbackState.audioSource ∈ urls) :
    (removeAudioSources st urls).1.playbackState = INITIAL_PLAYBACK_STATE ∧
    (∀ s : AudioSource, s ∈ (removeAudioSources st urls).1.audioSources ↔
      s ∈ st.audioSources ∧ s.url ∉ urls) ∧
    (removeAudioSources st urls).1.audioSources.Sublist st.audioSources := by
  refine ⟨?_, ?_, ?_⟩
  · simp [removeAudioSources, hplay, hmem]
  · intro s
    simp [removeAudioSources, List.mem_filter]
  · exact List.filter_sublist st.audioSources

/-- Claim C4 witness: the amended theorem applied to the concrete playing room. -/
theorem removeAudioSources_playing_reset_witness :
    (removeAudioSources exPlayingRoom ["u"]).1.playbackState = INITIAL_PLAYBACK_STATE ∧
    (∀ s : AudioSource, s ∈ (removeAudioSources exPlayingRoom ["u"]).1.audioSources ↔
      s ∈ exPlayingRoom.audioSources ∧ s.url ∉ ["u"]) ∧
    (removeAudioSources exPlayingRoom ["u"]).1.audioSources.Sublist exPlayingRoom.audioSources :=
  removeAudioSources_playing_reset exPlayingRoom ["u"] (by decide) (by decide)

/-! ## Claim C6 -/

/-- Claim C6 counterexample: `addAudioSource` performs a plain push, so adding a
url already present produces a queue with duplicate urls, from a state reachable
by queue operations alone. -/
theorem addAudioSource_allows_duplicate :
    ((addAudioSource initialRoomState { url := "u" }).audioSources.map
      AudioSource.url).Nodup ∧
    ¬ ((addAudioSource (addAudioSource initialRoomState { url := "u" })
        { url := "u" }).audioSources.map AudioSource.url).Nodup := by
  decide

/-- Claim C6 (amended): from a queue with pairwise-distinct urls,
`removeAudioSources` always preserves distinctness; `addAudioSource` preserves
it exactly under the proviso that the pushed url is not already present; and
`setAudioSources` yields a distinct queue when the replacement list is distinct. -/
theorem queue_url_uniqueness_ops (st : RoomState) (urls : List String)
    (src : AudioSource) (sources : List AudioSource)
    (hnodup : (st.audioSources.map AudioSource.url).Nodup) :
    ((removeAudioSources st urls).1.audioSources.map AudioSource.url).Nodup ∧
    (src.url ∉ st.audioSources.map AudioSource.url →
      ((addAudioSource st src).audioSources.map AudioSource.url).Nodup) ∧
    ((sources.map AudioSource.url).Nodup →
      ((setAudioSources st sources).audioSources.map AudioSource.url).Nodup) := by
  refine ⟨?_, ?_, ?_⟩
  · have hsub : ((removeAudioSources st urls).1.audioSources.map AudioSource.url).Sublist
        (st.audioSources.map AudioSource.url) := by
      simpa [removeAudioSources] using (List.filter_sublist st.audioSources).map AudioSource.url
    exact hsub.nodup hnodup
  · intro h
    have happ : (st.audioSources.map AudioSource.url ++ [src.url]).Nodup := by
      rw [List.nodup_append]
      refine ⟨hnodup, List.nodup_singleton _, ?_⟩
      intro a ha hb
      rw [List.mem_singleton] at hb
      subst hb
      exact h ha
    simpa [addAudioSource] using happ
  · intro h
    simpa [setAudioSources] using h

/-- Claim C6 witness: the amended theorem at the concrete room. -/
theorem queue_url_uniqueness_ops_witness :
    ((removeAudioSources exRoom ["u"]).1.audioSources.map AudioSource.url).Nodup ∧
    ((AudioSource.mk "w").url ∉ exRoom.audioSources.map AudioSource.url →
      ((addAudioSource exRoom (AudioSource.mk "w")).audioSources.map AudioSource.url).Nodup) ∧
    (([AudioSource.mk "x"].map AudioSource.url).Nodup →
      ((setAudioSources exRoom [AudioSource.mk "x"]).audioSources.map AudioSource.url).Nodup) :=
  queue_url_uniqueness_ops exRoom ["u"] (AudioSource.mk "w") [AudioSource.mk "x"] (by decide)

/-! ## Claim C9 -/

/-- Claim C9 counterexample: the claimed containment fails on the program's
binary64 arithmetic. From the reachable first-measurement state (`rtt = 0`, a
sample `3` stores exactly `3`), a second identical sample `3` makes the EMA
`3 * (1 - 0.2) + 3 * 0.2` round to `3 + 2^-51 = 3.0000000000000004`, strictly
above `max(prev, s) = 3` and different from the exact value `0.2·3 + 0.8·3`. -/
theorem processNTPRequestFrom_float_counterexample :
    ∃ c1 c2 : ClientData,
      lookupClient (processNTPRequestFrom exNtpRoom "n" (some 3) 5).clientData "n"
        = some c1 ∧
      c1.rtt = 3 ∧
      lookupClient
          (processNTPRequestFrom (processNTPRequestFrom exNtpRoom "n" (some 3) 5)
            "n" (some 3) 6).clientData "n" = some c2 ∧
      c2.rtt = 3 + (2:ℚ) ^ (-51 : ℤ) ∧
      max (3:ℚ) 3 < c2.rtt ∧
      c2.rtt ≠ (1/5) * 3 + (4/5) * 3 := by
  have hmid : lookupClient (processNTPRequestFrom exNtpRoom "n" (some 3) 5).clientData "n"
      = some { exNtpClient with lastNtpResponse := 5, rtt := 3 } := by decide
  have hstep2 := processNTPRequestFrom_pos_step
    (processNTPRequestFrom exNtpRoom "n" (some 3) 5) "n"
    { exNtpClient with lastNtpResponse := 5, rtt := 3 } 3 6 hmid (by decide) (by decide)
  have hv : emaUpdate64 3 3 = 3 + (2:ℚ) ^ (-51 : ℤ) := emaUpdate64_three_three
  have hgt : max (3:ℚ) 3 < 3 + (2:ℚ) ^ (-51 : ℤ) := by
    simp only [max_self]
    norm_num
  have hne : (3 : ℚ) + (2:ℚ) ^ (-51 : ℤ) ≠ (1/5) * 3 + (4/5) * 3 := by norm_num
  refine ⟨_, _, hmid, by decide, hstep2, ?_, ?_, ?_⟩
  · exact hv
  · exact lt_of_lt_of_eq hgt hv.symm
  · exact fun h => hne (hv.symm.trans h)

/-- Claim C9 (corrected): `processNTPRequestFrom` with a stored `rtt = prev ≥ 0`
and a reported sample `s > 0` stores `s` exactly when `prev = 0` (and then the
update lies in `[min(prev,s), max(prev,s)]`); when `prev > 0` it stores the
binary64 evaluation of `prev * (1 - 0.2) + s * 0.2`, which lies in the relaxed
envelope `[min(prev,s)·(1 - 2^-51), max(prev,s)·(1 + 2^-51)]` — the unrelaxed
containment of the original claim fails at `prev = s = 3`. -/
theorem processNTPRequestFrom_ema_float (st : RoomState) (cid : String) (c : ClientData)
    (sample now : ℚ) (hc : lookupClient st.clientData cid = some c)
    (hprev : 0 ≤ c.rtt) (hs : 0 < sample) :
    ∃ c2 : ClientData,
      lookupClient (processNTPRequestFrom st cid (some sample) now).clientData cid
        = some c2 ∧
      (c.rtt = 0 → c2.rtt = sample ∧ min c.rtt sample ≤ c2.rtt ∧
        c2.rtt ≤ max c.rtt sample) ∧
      (0 < c.rtt → c2.rtt = emaUpdate64 c.rtt sample) ∧
      (0 < c.rtt →
        min c.rtt sample * (1 - (2:ℚ) ^ (-51 : ℤ)) ≤ c2.rtt ∧
        c2.rtt ≤ max c.rtt sample * (1 + (2:ℚ) ^ (-51 : ℤ))) := by
  have hcid : c.clientId = cid := by
    have h := List.find?_some hc
    simpa using h
  unfold processNTPRequestFrom
  rw [hc]
  simp only [if_pos hs]
  by_cases hpos : c.rtt > 0
  · simp only [if_pos hpos]
    refine ⟨{ c with lastNtpResponse := now, rtt := emaUpdate64 c.rtt sample }, ?_, ?_, ?_, ?_⟩
    · rw [← hcid]
      exact lookupClient_setClient_self st.clientData _
    · intro h0
      exact absurd h0 (ne_of_gt hpos)
    · intro _
      rfl
    · intro _
      exact emaUpdate64_bounds c.rtt sample hpos hs
  · have h0 : c.rtt = 0 := le_antisymm (not_lt.mp hpos) hprev
    simp only [if_neg hpos]
    refine ⟨{ c with lastNtpResponse := now, rtt := sample }, ?_, ?_, ?_, ?_⟩
    · rw [← hcid]
      exact lookupClient_setClient_self st.clientData _
    · intro _
      refine ⟨rfl, ?_, ?_⟩
      · show min c.rtt sample ≤ sample
        rw [h0, min_eq_left (le_of_lt hs)]
        exact le_of_lt hs
      · show sample ≤ max c.rtt sample
        exact le_max_right _ _
    · intro hgt
      exact absurd hgt (by rw [h0]; exact lt_irrefl 0)
    · intro hgt
      exact absurd hgt (by rw [h0]; exact lt_irrefl 0)

/-- Claim C9 witness: the corrected theorem at the concrete room
(`prev = 10 > 0`, sample `20`). -/
theorem processNTPRequestFrom_ema_float_witness :
    ∃ c2 : ClientData,
      lookupClient (processNTPRequestFrom exRoom "a" (some 20) 5).clientData "a"
        = some c2 ∧
      (exAdminClient.rtt = 0 → c2.rtt = 20 ∧ min exAdminClient.rtt 20 ≤ c2.rtt ∧
        c2.rtt ≤ max exAdminClient.rtt 20) ∧
      (0 < exAdminClient.rtt → c2.rtt = emaUpdate64 exAdminClient.rtt 20) ∧
      (0 < exAdminClient.rtt →
        min exAdminClient.rtt 20 * (1 - (2:ℚ) ^ (-51 : ℤ)) ≤ c2.rtt ∧
        c2.rtt ≤ max exAdminClient.rtt 20 * (1 + (2:ℚ) ^ (-51 : ℤ))) :=
  processNTPRequestFrom_ema_float exRoom "a" exAdminClient 20 5 (by decide) (by decide)
    (by decide)

/-! ## Claim C8 -/

/-- Claim C8: `syncClient` on a paused playback state sends nothing (and, being
a read-only method in the embedding, changes no state); on a playing state it
sends exactly one unicast scheduled PLAY whose execution time carries the extra
1500 ms offset and whose track time is the stored position plus
(execution time − playback start time)/1000. -/
theorem syncClient_semantics (st : RoomState) (now : ℚ) :
    (st.playbackState.type = .paused → syncClient st now = []) ∧
    (st.playbackState.type = .playing →
      syncClient st now = [.unicast (.scheduledAction
        (getScheduledExecutionTime st now 1500)
        (.play st.playbackState.audioSource
          (st.playbackState.trackPositionSeconds +
            (getScheduledExecutionTime st now 1500
              - st.playbackState.serverTimeToExecute) / 1000)))]) := by
  constructor
  · intro h
    simp [syncClient, h]
  · intro h
    have hne : ¬ st.playbackState.type = .paused := by
      rw [h]
      intro hx
      exact PlaybackType.noConfusion hx
    simp [syncClient, hne]

/-- Claim C8 witness: for the concrete playing room at `now = 1000` (max RTT 10,
so the schedule delay clamps to 400), the single unicast carries
`serverTimeToExecute = 1000 + 400 + 1500 = 2900` and track time
`10 + (2900 − 500)/1000 = 62/5`. -/
theorem syncClient_semantics_witness :
    syncClient exPlayingRoom 1000 =
      [.unicast (.scheduledAction 2900 (.play "u" (62/5)))] := by
  have h := (syncClient_semantics exPlayingRoom 1000).2 (by decide)
  rw [h]
  norm_num [getScheduledExecutionTime, getMaxClientRTT, getClients, exPlayingRoom,
    exRoom, exAdminClient, calculateScheduleTimeMs, MIN_SCHEDULE_TIME_MS,
    CAP_SCHEDULE_TIME_MS, DEFAULT_CLIENT_RTT_MS, initialRoomState, min_def, max_def]

/-! ## Claim C5 -/

/-- `updatePlaybackSchedulePause` on a url present in the queue: the validation
branch is skipped and the state pauses on the given url and position. -/
theorem updatePause_of_any (st : RoomState) (pa : PauseAction) (t : ℚ)
    (hany : st.audioSources.any (fun s => s.url = pa.audioSource) = true) :
    updatePlaybackSchedulePause st pa t =
      ({ st with playbackState :=
          { type := .paused, audioSource := pa.audioSource,
            serverTimeToExecute := t,
            trackPositionSeconds := pa.trackTimeSeconds } }, true) := by
  unfold updatePlaybackSchedulePause
  rw [if_neg]
  intro hx
  exact hx.2 hany

/-- `updatePlaybackSchedulePause` on an empty url: JS truthiness skips the
validation branch, so the state pauses on the empty url. -/
theorem updatePause_of_empty (st : RoomState) (pa : PauseAction) (t : ℚ)
    (he : pa.audioSource = "") :
    updatePlaybackSchedulePause st pa t =
      ({ st with playbackState :=
          { type := .paused, audioSource := pa.audioSource,
            serverTimeToExecute := t,
            trackPositionSeconds := pa.trackTimeSeconds } }, true) := by
  unfold updatePlaybackSchedulePause
  rw [if_neg]
  intro hx
  exact hx.1 he

/-- Claim C5: a pause request passing the mutation gate always leaves the
playback state paused; when the referenced track is in the queue the stored
state keeps the given url and track position and the scheduled PAUSE is
broadcast, and when the request carries an empty url (the deleted-track path)
the empty url is accepted and the scheduled PAUSE is likewise broadcast, both
with the computed execution time. -/
theorem handlePause_semantics (st : RoomState) (cid : String) (pa : PauseAction)
    (now : ℚ) (hgate : canMutate st cid = true) :
    (handlePause st cid pa now).1.playbackState.type = .paused ∧
    (pa.audioSource ∈ st.audioSources.map AudioSource.url →
      (handlePause st cid pa now).1.playbackState.audioSource = pa.audioSource ∧
      (handlePause st cid pa now).1.playbackState.trackPositionSeconds
        = pa.trackTimeSeconds ∧
      (handlePause st cid pa now).2 = [.broadcast (.scheduledAction
        (getScheduledExecutionTime st now 0)
        (.pause pa.audioSource pa.trackTimeSeconds))]) ∧
    (pa.audioSource = "" →
      (handlePause st cid pa now).1.playbackState.audioSource = "" ∧
      (handlePause st cid pa now).2 = [.broadcast (.scheduledAction
        (getScheduledExecutionTime st now 0)
        (.pause pa.audioSource pa.trackTimeSeconds))]) := by
  refine ⟨?_, ?_, ?_⟩
  · simp only [handlePause, hgate, if_true]
    unfold updatePlaybackSchedulePause
    split_ifs <;> rfl
  · intro hmem
    have hany : st.audioSources.any (fun s => s.url = pa.audioSource) = true := by
      rw [List.any_eq_true]
      obtain ⟨s, hs, heq⟩ := List.mem_map.1 hmem
      exact ⟨s, hs, by simp [heq]⟩
    simp [handlePause, hgate, updatePause_of_any st pa _ hany]
  · intro hempty
    simp [handlePause, hgate, updatePause_of_empty st pa _ hempty, hempty]

/-- Claim C5 witness: the theorem at the concrete room, pausing the queued
track "u" at position 3 with schedule time 1400. -/
theorem handlePause_semantics_witness :
    (handlePause exRoom "a" { audioSource := "u", trackTimeSeconds := 3 } 1000).1.playbackState.type = .paused ∧
    (handlePause exRoom "a" { audioSource := "u", trackTimeSeconds := 3 } 1000).1.playbackState.audioSource = "u" ∧
    (handlePause exRoom "a" { audioSource := "u", trackTimeSeconds := 3 } 1000).2
      = [.broadcast (.scheduledAction 1400 (.pause "u" 3))] := by
  have h := handlePause_semantics exRoom "a" { audioSource := "u", trackTimeSeconds := 3 } 1000 (by decide)
  have hm := h.2.1 (by decide)
  refine ⟨h.1, hm.1, ?_⟩
  rw [hm.2.2]
  norm_num [getScheduledExecutionTime, getMaxClientRTT, getClients, exRoom,
    exAdminClient, calculateScheduleTimeMs, MIN_SCHEDULE_TIME_MS,
    CAP_SCHEDULE_TIME_MS, DEFAULT_CLIENT_RTT_MS, initialRoomState, min_def, max_def]

/-! ## Claim C10 -/

/-- The pushed-then-capped chat buffer always ends in the pushed message. -/
theorem chat_push_getLast (l : List ChatMessage) (m : ChatMessage) :
    (if MAX_CHAT_MESSAGES < (l ++ [m]).length then (l ++ [m]).tail
     else l ++ [m]).getLast? = some m := by
  split_ifs with h
  · cases l with
    | nil => simp [MAX_CHAT_MESSAGES] at h
    | cons a as =>
      simp only [List.cons_append, List.tail_cons]
      exact List.getLast?_concat as
  · exact List.getLast?_concat l

/-- Claim C10: for every run of the chat path (the external sanitize-html call
with tags, attributes and schemes all disallowed enters as the abstract
`sanitize`), a message whose sanitized trimmed text is non-empty is stored and
broadcast with exactly that text and the next id, bumping the id counter; a
message whose sanitized trimmed text is empty makes `addMessage` throw, and the
handler swallows the throw leaving the room state (buffer and counter)
untouched, broadcasting nothing. -/
theorem chat_sanitize_semantics (sanitize : String → String) (st : RoomState)
    (cid text : String) (now : ℚ) (client : ClientData)
    (hc : lookupClient st.clientData cid = some client) :
    (jsTrim (sanitize text) ≠ "" →
      ∃ m : ChatMessage,
        (handleSendChatMessage sanitize st cid text now).1.chat.chatMessages.getLast?
          = some m ∧
        m.text = jsTrim (sanitize text) ∧
        m.text ≠ "" ∧
        m.id = st.chat.nextMessageId ∧
        (handleSendChatMessage sanitize st cid text now).1.chat.nextMessageId
          = st.chat.nextMessageId + 1 ∧
        (handleSendChatMessage sanitize st cid text now).2
          = [.broadcast (.roomEvent (.chatUpdate [m] false m.id))]) ∧
    (jsTrim (sanitize text) = "" →
      (handleSendChatMessage sanitize st cid text now).1 = st ∧
      (handleSendChatMessage sanitize st cid text now).2 = []) := by
  constructor
  · intro hne
    unfold handleSendChatMessage addChatMessage addMessage
    rw [hc]
    dsimp only
    rw [if_neg hne]
    dsimp only
    refine ⟨{ id := st.chat.nextMessageId, clientId := client.clientId,
              username := client.username, text := jsTrim (sanitize text),
              timestamp := now,
              countryCode := client.location.map (fun l => l.countryCode) },
            ?_, rfl, hne, rfl, rfl, ?_⟩
    · exact chat_push_getLast st.chat.chatMessages _
    · simp only [getNewestChatId, chat_push_getLast st.chat.chatMessages _]
  · intro hemp
    unfold handleSendChatMessage addChatMessage addMessage
    rw [hc]
    dsimp only
    rw [if_pos hemp]
    exact ⟨rfl, rfl⟩

/-- Claim C10 witness: the theorem at the concrete room with the identity-like
sanitizer output " hi " (trimmed to "hi"). -/
theorem chat_sanitize_semantics_witness :
    ∃ m : ChatMessage,
      (handleSendChatMessage (fun _ => " hi ") exRoom "a" "x" 7).1.chat.chatMessages.getLast?
        = some m ∧
      m.text = jsTrim ((fun _ => " hi ") "x") ∧
      m.text ≠ "" ∧
      m.id = exRoom.chat.nextMessageId ∧
      (handleSendChatMessage (fun _ => " hi ") exRoom "a" "x" 7).1.chat.nextMessageId
        = exRoom.chat.nextMessageId + 1 ∧
      (handleSendChatMessage (fun _ => " hi ") exRoom "a" "x" 7).2
        = [.broadcast (.roomEvent (.chatUpdate [m] false m.id))] :=
  (chat_sanitize_semantics (fun _ => " hi ") exRoom "a" "x" 7 exAdminClient
    (by decide)).1 (by decide)

/-! ## Claim C1 -/

/-- The schedule delay of config.ts is clamped into `[MIN, CAP] = [400, 3000]`. -/
theorem calculateScheduleTimeMs_bounds (maxRTT : ℚ) :
    MIN_SCHEDULE_TIME_MS ≤ calculateScheduleTimeMs maxRTT ∧
    calculateScheduleTimeMs maxRTT ≤ CAP_SCHEDULE_TIME_MS := by
  constructor
  · apply le_min (le_max_left _ _)
    norm_num [MIN_SCHEDULE_TIME_MS, CAP_SCHEDULE_TIME_MS]
  · exact min_le_right _ _

/-- `getScheduledExecutionTime` lands in `[now+400+extra, now+3000+extra]`. -/
theorem getScheduledExecutionTime_bounds (st : RoomState) (now extra : ℚ) :
    now + MIN_SCHEDULE_TIME_MS + extra ≤ getScheduledExecutionTime st now extra ∧
    getScheduledExecutionTime st now extra ≤ now + CAP_SCHEDULE_TIME_MS + extra := by
  obtain ⟨h1, h2⟩ := calculateScheduleTimeMs_bounds (getMaxClientRTT st)
  unfold getScheduledExecutionTime
  constructor <;> linarith

/-- Claim C1 counterexample: `setGlobalVolume` broadcasts its
GLOBAL_VOLUME_CONFIG scheduled action with `serverTimeToExecute = now`
("Execute ASAP"), which is strictly below the claimed lower bound
`now + MIN_SCHEDULE_MS`. -/
theorem setGlobalVolume_emits_now :
    (setGlobalVolume exRoom (1/2) 1000).2 =
      [.broadcast (.scheduledAction 1000 (.globalVolumeConfig (1/2) (1/10)))] ∧
    (1000 : ℚ) < 1000 + MIN_SCHEDULE_TIME_MS := by
  constructor
  · norm_num [setGlobalVolume, min_def, max_def]
  · norm_num [MIN_SCHEDULE_TIME_MS]

/-- Claim C1 (amended): every scheduled play commit (direct handler or barrier
commit), pause, and spatial-loop tick broadcast a SCHEDULED_ACTION whose
execution time lies in `[now+MIN, now+CAP] = [now+400, now+3000]`, and the SYNC
unicast shifts both bounds up by 1500 ms; but the global-volume config
broadcast — and likewise the one-shot spatial config of
`_calculateGainsAndBroadcast` — carries `serverTimeToExecute = now` exactly. -/
theorem scheduled_action_time_bounds (tm : TrigModel) (gm : GainModel)
    (st : RoomState) (cid : String) (play : PlayAction) (pa : PauseAction)
    (loopCount : ℕ) (volume now t : ℚ) (p : ScheduledPayload) :
    (Outgoing.broadcast (.scheduledAction t p) ∈ (handlePlay st cid play now).2 →
      now + MIN_SCHEDULE_TIME_MS ≤ t ∧ t ≤ now + CAP_SCHEDULE_TIME_MS) ∧
    (Outgoing.broadcast (.scheduledAction t p) ∈ (executeScheduledPlay st now).2 →
      now + MIN_SCHEDULE_TIME_MS ≤ t ∧ t ≤ now + CAP_SCHEDULE_TIME_MS) ∧
    (Outgoing.broadcast (.scheduledAction t p) ∈ (handlePause st cid pa now).2 →
      now + MIN_SCHEDULE_TIME_MS ≤ t ∧ t ≤ now + CAP_SCHEDULE_TIME_MS) ∧
    (Outgoing.broadcast (.scheduledAction t p)
        ∈ (spatialTickBroadcast tm gm st loopCount now).2 →
      now + MIN_SCHEDULE_TIME_MS ≤ t ∧ t ≤ now + CAP_SCHEDULE_TIME_MS) ∧
    (Outgoing.unicast (.scheduledAction t p) ∈ syncClient st now →
      now + MIN_SCHEDULE_TIME_MS + 1500 ≤ t ∧
        t ≤ now + CAP_SCHEDULE_TIME_MS + 1500) ∧
    (Outgoing.broadcast (.scheduledAction t p) ∈ (setGlobalVolume st volume now).2 →
      t = now) ∧
    (Outgoing.broadcast (.scheduledAction t p) ∈ calculateGainsAndBroadcast gm st now →
      t = now) := by
  refine ⟨?_, ?_, ?_, ?_, ?_, ?_, ?_⟩
  · intro hmem
    simp only [handlePlay] at hmem
    split_ifs at hmem with hg hsucc
    · simp only [List.mem_singleton, Outgoing.broadcast.injEq,
        Message.scheduledAction.injEq] at hmem
      obtain ⟨h1, h2⟩ := getScheduledExecutionTime_bounds st now 0
      obtain ⟨ht, -⟩ := hmem
      subst ht
      constructor <;> linarith
    · exact absurd hmem (List.not_mem_nil _)
    · exact absurd hmem (List.not_mem_nil _)
  · intro hmem
    cases hpp : st.pendingPlay with
    | none => simp [executeScheduledPlay, hpp] at hmem
    | some pp =>
      simp only [executeScheduledPlay, hpp] at hmem
      split_ifs at hmem with hsucc
      · simp only [List.mem_singleton, Outgoing.broadcast.injEq,
          Message.scheduledAction.injEq] at hmem
        obtain ⟨h1, h2⟩ := getScheduledExecutionTime_bounds
          { st with pendingPlay := none } now 0
        obtain ⟨ht, -⟩ := hmem
        subst ht
        constructor <;> linarith
      · exact absurd hmem (List.not_mem_nil _)
  · intro hmem
    simp only [handlePause] at hmem
    split_ifs at hmem with hg hsucc
    · simp only [List.mem_singleton, Outgoing.broadcast.injEq,
        Message.scheduledAction.injEq] at hmem
      obtain ⟨h1, h2⟩ := getScheduledExecutionTime_bounds st now 0
      obtain ⟨ht, -⟩ := hmem
      subst ht
      constructor <;> linarith
    · exact absurd hmem (List.not_mem_nil _)
    · exact absurd hmem (List.not_mem_nil _)
  · intro hmem
    simp only [spatialTickBroadcast] at hmem
    split_ifs at hmem with hempty
    · exact absurd hmem (List.not_mem_nil _)
    · simp only [List.mem_singleton, Outgoing.broadcast.injEq,
        Message.scheduledAction.injEq] at hmem
      obtain ⟨ht, -⟩ := hmem
      subst ht
      obtain ⟨h1, h2⟩ := getScheduledExecutionTime_bounds _ now 0
      constructor <;> linarith
  · intro hmem
    simp only [syncClient] at hmem
    split_ifs at hmem with hpause
    · exact absurd hmem (List.not_mem_nil _)
    · simp only [List.mem_singleton, Outgoing.unicast.injEq,
        Message.scheduledAction.injEq] at hmem
      obtain ⟨ht, -⟩ := hmem
      subst ht
      obtain ⟨h1, h2⟩ := getScheduledExecutionTime_bounds st now 1500
      constructor <;> linarith
  · intro hmem
    simp only [setGlobalVolume, List.mem_singleton, Outgoing.broadcast.injEq,
      Message.scheduledAction.injEq] at hmem
    exact hmem.1
  · intro hmem
    simp only [calculateGainsAndBroadcast, List.mem_singleton,
      Outgoing.broadcast.injEq, Message.scheduledAction.injEq] at hmem
    rw [hmem.1]
    exact add_zero now

/-- Claim C1 witness: the handlePlay conjunct at the concrete room, whose
emitted play broadcast carries execution time 1400 = 1000 + 400. -/
theorem scheduled_action_time_bounds_witness :
    (1000 : ℚ) + MIN_SCHEDULE_TIME_MS ≤ 1400 ∧
    (1400 : ℚ) ≤ 1000 + CAP_SCHEDULE_TIME_MS := by
  apply (scheduled_action_time_bounds tmZero gmZero exRoom "a"
    { audioSource := "u", trackTimeSeconds := 3 }
    { audioSource := "u", trackTimeSeconds := 3 } 0 1 1000 1400 (.play "u" 3)).1
  have hout : (handlePlay exRoom "a" { audioSource := "u", trackTimeSeconds := 3 } 1000).2
      = [.broadcast (.scheduledAction 1400 (.play "u" 3))] := by
    norm_num [handlePlay, canMutate, lookupClient, exRoom, exAdminClient,
      initialRoomState, updatePlaybackSchedulePlay, getScheduledExecutionTime,
      getMaxClientRTT, getClients, calculateScheduleTimeMs, MIN_SCHEDULE_TIME_MS,
      CAP_SCHEDULE_TIME_MS, DEFAULT_CLIENT_RTT_MS, min_def, max_def]
  rw [hout]
  exact List.mem_singleton_self _

/-! ## Claim C2 -/

/-- `updatePlaybackSchedulePlay` on a url present in the queue. -/
theorem updatePlay_of_any (st : RoomState) (play : PlayAction) (t : ℚ)
    (hany : st.audioSources.any (fun s => s.url = play.audioSource) = true) :
    updatePlaybackSchedulePlay st play t =
      ({ st with playbackState :=
          { type := .playing, audioSource := play.audioSource,
            serverTimeToExecute := t,
            trackPositionSeconds := play.trackTimeSeconds } }, true) := by
  unfold updatePlaybackSchedulePlay
  rw [if_pos hany]

/-- `updatePlaybackSchedulePlay` refuses a url absent from the queue. -/
theorem updatePlay_of_not_any (st : RoomState) (play : PlayAction) (t : ℚ)
    (hany : st.audioSources.any (fun s => s.url = play.audioSource) = false) :
    updatePlaybackSchedulePlay st play t = (st, false) := by
  unfold updatePlaybackSchedulePlay
  rw [if_neg (by rw [hany]; exact Bool.false_ne_true)]

/-- A queued url that `any` finds is in the projected url list. -/
theorem mem_map_url_of_any (l : List AudioSource) (u : String)
    (hany : l.any (fun s => s.url = u) = true) :
    u ∈ l.map AudioSource.url := by
  rw [List.any_eq_true] at hany
  obtain ⟨sEntry, hsmem, hseq⟩ := hany
  exact List.mem_map.2 ⟨sEntry, hsmem, by simpa using hseq⟩

/-- Whenever `executeScheduledPlay` broadcasts a scheduled PLAY, its url is in
the queue of the emitting state, and the queue is untouched. -/
theorem executeScheduledPlay_play_mem (st : RoomState) (now t sec : ℚ) (u : String)
    (hmem : Outgoing.broadcast (.scheduledAction t (.play u sec))
      ∈ (executeScheduledPlay st now).2) :
    u ∈ (executeScheduledPlay st now).1.audioSources.map AudioSource.url ∧
    (executeScheduledPlay st now).1.audioSources = st.audioSources := by
  cases hpp : st.pendingPlay with
  | none => simp [executeScheduledPlay, hpp] at hmem
  | some pp =>
    cases hany : ({ st with pendingPlay := none } : RoomState).audioSources.any
        (fun s => s.url = pp.playAction.audioSource) with
    | false =>
      have hrw := updatePlay_of_not_any { st with pendingPlay := none } pp.playAction
        (getScheduledExecutionTime { st with pendingPlay := none } now 0) hany
      simp [executeScheduledPlay, hpp, hrw] at hmem
    | true =>
      have hrw := updatePlay_of_any { st with pendingPlay := none } pp.playAction
        (getScheduledExecutionTime { st with pendingPlay := none } now 0) hany
      have hexec : executeScheduledPlay st now =
          ({ ({ st with pendingPlay := none } : RoomState) with playbackState :=
              { type := .playing, audioSource := pp.playAction.audioSource,
                serverTimeToExecute :=
                  getScheduledExecutionTime { st with pendingPlay := none } now 0,
                trackPositionSeconds := pp.playAction.trackTimeSeconds } },
           [.broadcast (.scheduledAction
              (getScheduledExecutionTime { st with pendingPlay := none } now 0)
              (.play pp.playAction.audioSource pp.playAction.trackTimeSeconds))]) := by
        simp [executeScheduledPlay, hpp, hrw]
      rw [hexec] at hmem ⊢
      simp only [List.mem_singleton, Outgoing.broadcast.injEq,
        Message.scheduledAction.injEq, ScheduledPayload.play.injEq] at hmem
      obtain ⟨-, hu, -⟩ := hmem
      subst hu
      exact ⟨mem_map_url_of_any _ _ hany, rfl⟩

/-- `promoteIfNoAdmin` only rewrites client records: queue, connection set and
pending play are untouched. -/
theorem promoteIfNoAdmin_fields (tm : TrigModel) (s : RoomState) (randFrac : ℚ) :
    (promoteIfNoAdmin tm s randFrac).audioSources = s.audioSources ∧
    (promoteIfNoAdmin tm s randFrac).wsConnections = s.wsConnections ∧
    (promoteIfNoAdmin tm s randFrac).pendingPlay = s.pendingPlay := by
  simp only [promoteIfNoAdmin]
  split_ifs with h1 h2
  · split <;> exact ⟨rfl, rfl, rfl⟩
  · exact ⟨rfl, rfl, rfl⟩
  · exact ⟨rfl, rfl, rfl⟩

/-- Whenever `removeClientBarrier` broadcasts a scheduled PLAY, its url is in
the queue of the emitting state, and the queue is untouched. -/
theorem removeClientBarrier_play_mem (st3 : RoomState) (cid : String)
    (now t sec : ℚ) (u : String)
    (hmem : Outgoing.broadcast (.scheduledAction t (.play u sec))
      ∈ (removeClientBarrier st3 cid now).2) :
    u ∈ (removeClientBarrier st3 cid now).1.audioSources.map AudioSource.url ∧
    (removeClientBarrier st3 cid now).1.audioSources = st3.audioSources := by
  cases hpp : st3.pendingPlay with
  | none => simp [removeClientBarrier, hpp] at hmem
  | some pp =>
    simp only [removeClientBarrier, hpp] at hmem ⊢
    by_cases hall : allClientsLoadedPendingSource
        { st3 with pendingPlay := some ({ pp with
          clientsLoaded := pp.clientsLoaded.erase cid }) } = true
    · rw [if_pos hall] at hmem ⊢
      exact executeScheduledPlay_play_mem _ now t sec u hmem
    · rw [if_neg hall] at hmem
      simp at hmem

/-- Claim C2: on every path that can emit a scheduled PLAY broadcast — the
direct play handler, the barrier commit, the all-loaded check of
AUDIO_SOURCE_LOADED, and the barrier re-check of removeClient — the broadcast
url is in the room's queue at the moment of emission (and none of these paths
modifies the queue). The SYNC path emits only a unicast, not a broadcast. -/
theorem play_broadcast_url_in_queue (tm : TrigModel) (st : RoomState)
    (cid u : String) (play : PlayAction) (now randFrac t sec : ℚ) :
    (Outgoing.broadcast (.scheduledAction t (.play u sec))
        ∈ (handlePlay st cid play now).2 →
      u ∈ (handlePlay st cid play now).1.audioSources.map AudioSource.url ∧
      (handlePlay st cid play now).1.audioSources = st.audioSources) ∧
    (Outgoing.broadcast (.scheduledAction t (.play u sec))
        ∈ (executeScheduledPlay st now).2 →
      u ∈ (executeScheduledPlay st now).1.audioSources.map AudioSource.url ∧
      (executeScheduledPlay st now).1.audioSources = st.audioSources) ∧
    (Outgoing.broadcast (.scheduledAction t (.play u sec))
        ∈ (processClientLoadedAudioSource st cid now).2 →
      u ∈ (processClientLoadedAudioSource st cid now).1.audioSources.map
        AudioSource.url ∧
      (processClientLoadedAudioSource st cid now).1.audioSources = st.audioSources) ∧
    (Outgoing.broadcast (.scheduledAction t (.play u sec))
        ∈ (removeClient tm st cid randFrac now).2 →
      u ∈ (removeClient tm st cid randFrac now).1.audioSources.map AudioSource.url ∧
      (removeClient tm st cid randFrac now).1.audioSources = st.audioSources) := by
  refine ⟨?_, executeScheduledPlay_play_mem st now t sec u, ?_, ?_⟩
  · intro hmem
    by_cases hg : canMutate st cid = true
    · cases hany : st.audioSources.any (fun s => s.url = play.audioSource) with
      | false =>
        have hrw := updatePlay_of_not_any st play
          (getScheduledExecutionTime st now 0) hany
        simp [handlePlay, hg, hrw] at hmem
      | true =>
        have hrw := updatePlay_of_any st play
          (getScheduledExecutionTime st now 0) hany
        have hexec : handlePlay st cid play now =
            ({ st with playbackState :=
                { type := .playing, audioSource := play.audioSource,
                  serverTimeToExecute := getScheduledExecutionTime st now 0,
                  trackPositionSeconds := play.trackTimeSeconds } },
             [.broadcast (.scheduledAction (getScheduledExecutionTime st now 0)
                (.play play.audioSource play.trackTimeSeconds))]) := by
          simp [handlePlay, hg, hrw]
        rw [hexec] at hmem ⊢
        simp only [List.mem_singleton, Outgoing.broadcast.injEq,
          Message.scheduledAction.injEq, ScheduledPayload.play.injEq] at hmem
        obtain ⟨-, hu, -⟩ := hmem
        subst hu
        exact ⟨mem_map_url_of_any _ _ hany, rfl⟩
    · simp [handlePlay, hg] at hmem
  · intro hmem
    cases hpp : st.pendingPlay with
    | none => simp [processClientLoadedAudioSource, hpp] at hmem
    | some pp =>
      simp only [processClientLoadedAudioSource, hpp] at hmem ⊢
      by_cases hall : allClientsLoadedPendingSource
          { st with pendingPlay := some ({ pp with
            clientsLoaded := loadedInsert pp.clientsLoaded cid }) } = true
      · rw [if_pos hall] at hmem ⊢
        exact executeScheduledPlay_play_mem _ now t sec u hmem
      · rw [if_neg hall] at hmem
        simp at hmem
  · intro hmem
    have h := removeClientBarrier_play_mem
      (promoteIfNoAdmin tm { st with wsConnections := st.wsConnections.erase cid }
        randFrac) cid now t sec u hmem
    have hfields := promoteIfNoAdmin_fields tm
      { st with wsConnections := st.wsConnections.erase cid } randFrac
    exact ⟨h.1, h.2.trans hfields.1⟩

/-- Claim C2 witness: the handlePlay conjunct at the concrete room: the emitted
play broadcast references "u", which is indeed in the untouched queue. -/
theorem play_broadcast_url_in_queue_witness :
    "u" ∈ (handlePlay exRoom "a" { audioSource := "u", trackTimeSeconds := 3 }
      1000).1.audioSources.map AudioSource.url ∧
    (handlePlay exRoom "a" { audioSource := "u", trackTimeSeconds := 3 }
      1000).1.audioSources = exRoom.audioSources := by
  apply (play_broadcast_url_in_queue tmZero exRoom "a" "u"
    { audioSource := "u", trackTimeSeconds := 3 } 1000 0 1400 3).1
  have hout : (handlePlay exRoom "a" { audioSource := "u", trackTimeSeconds := 3 } 1000).2
      = [.broadcast (.scheduledAction 1400 (.play "u" 3))] := by
    norm_num [handlePlay, canMutate, lookupClient, exRoom, exAdminClient,
      initialRoomState, updatePlaybackSchedulePlay, getScheduledExecutionTime,
      getMaxClientRTT, getClients, calculateScheduleTimeMs, MIN_SCHEDULE_TIME_MS,
      CAP_SCHEDULE_TIME_MS, DEFAULT_CLIENT_RTT_MS, min_def, max_def]
  rw [hout]
  exact List.mem_singleton_self _

/-! ## Helper lemmas for the client map and repositioning -/

/-- Membership in the connected view unfolds to map membership + connectivity. -/
theorem mem_getClients_iff (st : RoomState) (c : ClientData) :
    c ∈ getClients st ↔ c ∈ st.clientData ∧ c.clientId ∈ st.wsConnections := by
  simp [getClients, List.mem_filter]

/-- The stored record is in the map after `setClient`. -/
theorem setClient_mem_self (l : List ClientData) (c : ClientData) :
    c ∈ setClient l c := by
  induction l with
  | nil => simp [setClient]
  | cons d rest ih =>
    by_cases h : d.clientId = c.clientId
    · simp [setClient, h]
    · simp only [setClient, if_neg h, List.mem_cons]
      exact Or.inr ih

/-- Records under a different key survive `setClient`. -/
theorem setClient_mem_of_ne (l : List ClientData) (c a : ClientData)
    (ha : a ∈ l) (hne : a.clientId ≠ c.clientId) : a ∈ setClient l c := by
  induction l with
  | nil => cases ha
  | cons d rest ih =>
    rcases List.mem_cons.1 ha with hd | hr
    · subst hd
      rw [setClient, if_neg hne]
      exact List.mem_cons_self _ _
    · by_cases h : d.clientId = c.clientId
      · rw [setClient, if_pos h]
        exact List.mem_cons_of_mem _ hr
      · rw [setClient, if_neg h]
        exact List.mem_cons_of_mem _ (ih hr)

/-- Keys after `setClient` come from the stored record or the old map. -/
theorem mem_keys_setClient (l : List ClientData) (c : ClientData) (x : String)
    (hx : x ∈ (setClient l c).map ClientData.clientId) :
    x = c.clientId ∨ x ∈ l.map ClientData.clientId := by
  induction l with
  | nil => simpa [setClient] using hx
  | cons d rest ih =>
    by_cases h : d.clientId = c.clientId
    · rw [setClient, if_pos h, List.map_cons] at hx
      rcases List.mem_cons.1 hx with h1 | h1
      · exact Or.inl h1
      · exact Or.inr (by rw [List.map_cons]; exact List.mem_cons.2 (Or.inr h1))
    · rw [setClient, if_neg h, List.map_cons] at hx
      rcases List.mem_cons.1 hx with h1 | h1
      · exact Or.inr (by rw [List.map_cons]; exact List.mem_cons.2 (Or.inl h1))
      · rcases ih h1 with h2 | h2
        · exact Or.inl h2
        · exact Or.inr (by rw [List.map_cons]; exact List.mem_cons.2 (Or.inr h2))

/-- `setClient` keeps the keys pairwise distinct. -/
theorem setClient_keys_nodup (l : List ClientData) (c : ClientData)
    (h : (l.map ClientData.clientId).Nodup) :
    ((setClient l c).map ClientData.clientId).Nodup := by
  induction l with
  | nil => simp [setClient]
  | cons d rest ih =>
    rw [List.map_cons, List.nodup_cons] at h
    by_cases hd : d.clientId = c.clientId
    · rw [setClient, if_pos hd, List.map_cons, List.nodup_cons]
      exact ⟨by rw [← hd]; exact h.1, h.2⟩
    · rw [setClient, if_neg hd, List.map_cons, List.nodup_cons]
      refine ⟨?_, ih h.2⟩
      intro hmem
      rcases mem_keys_setClient rest c d.clientId hmem with h1 | h1
      · exact hd h1
      · exact h.1 h1

/-- With pairwise-distinct keys, a member is exactly what its key looks up. -/
theorem lookupClient_of_mem_nodup (l : List ClientData) (a : ClientData)
    (hkeys : (l.map ClientData.clientId).Nodup) (ha : a ∈ l) :
    lookupClient l a.clientId = some a := by
  induction l with
  | nil => cases ha
  | cons d rest ih =>
    rw [List.map_cons, List.nodup_cons] at hkeys
    rcases List.mem_cons.1 ha with rfl | hr
    · simp [lookupClient]
    · have hne : ¬ d.clientId = a.clientId := by
        intro he
        exact hkeys.1 (he ▸ List.mem_map_of_mem _ hr)
      simpa [lookupClient, List.find?_cons, hne] using ih hkeys.2 hr

/-- A key absent from the map filters to nothing. -/
theorem filter_key_nil (l : List ClientData) (x : String)
    (hx : x ∉ l.map ClientData.clientId) :
    l.filter (fun d => d.clientId = x) = [] := by
  induction l with
  | nil => rfl
  | cons d rest ih =>
    have hd : ¬ d.clientId = x := fun he =>
      hx (by rw [List.map_cons]; exact List.mem_cons.2 (Or.inl he.symm))
    have hr : x ∉ rest.map ClientData.clientId := fun hm =>
      hx (by rw [List.map_cons]; exact List.mem_cons.2 (Or.inr hm))
    rw [List.filter_cons]
    simp [hd, ih hr]

/-- With pairwise-distinct keys, filtering `setClient l c` by the stored key
yields exactly the stored record. -/
theorem filter_key_setClient (l : List ClientData) (c : ClientData)
    (hkeys : (l.map ClientData.clientId).Nodup) :
    (setClient l c).filter (fun d => d.clientId = c.clientId) = [c] := by
  induction l with
  | nil => simp [setClient]
  | cons d rest ih =>
    rw [List.map_cons, List.nodup_cons] at hkeys
    by_cases h : d.clientId = c.clientId
    · rw [setClient, if_pos h, List.filter_cons]
      have hnil : rest.filter (fun d => d.clientId = c.clientId) = [] :=
        filter_key_nil rest c.clientId (by rw [← h]; exact hkeys.1)
      simp [hnil]
    · rw [setClient, if_neg h, List.filter_cons]
      simp [h, ih hkeys.2]

/-- The inserted id is connected after `wsInsert`. -/
theorem mem_wsInsert_self (l : List String) (cid : String) : cid ∈ wsInsert l cid := by
  unfold wsInsert
  split_ifs with h
  · exact h
  · simp

/-- Previously connected ids stay connected after `wsInsert`. -/
theorem mem_wsInsert_of_mem (l : List String) (cid x : String) (hx : x ∈ l) :
    x ∈ wsInsert l cid := by
  unfold wsInsert
  split_ifs
  · exact hx
  · exact List.mem_append_left _ hx

/-- `circleAssign` only rewrites positions. -/
theorem circleAssign_coreFields (tm : TrigModel) (total : ℕ) :
    ∀ (i : ℕ) (l : List ClientData),
      (circleAssign tm total i l).map coreFields = l.map coreFields := by
  intro i l
  induction l generalizing i with
  | nil => rfl
  | cons c rest ih =>
    rw [circleAssign, List.map_cons, List.map_cons, ih]
    rfl

/-- `positionClientsInCircle` only rewrites positions. -/
theorem positionClientsInCircle_coreFields (tm : TrigModel) (l : List ClientData) :
    (positionClientsInCircle tm l).map coreFields = l.map coreFields := by
  unfold positionClientsInCircle
  split_ifs with h
  · rw [List.map_map]
    rfl
  · exact circleAssign_coreFields tm l.length 0 l

/-- A repositioned record agrees with a source record on everything but the
position. -/
theorem mem_coreFields_of_mem_circle (tm : TrigModel) (l : List ClientData)
    (r : ClientData) (hr : r ∈ positionClientsInCircle tm l) :
    ∃ c ∈ l, coreFields r = coreFields c := by
  have hmem : coreFields r ∈ (positionClientsInCircle tm l).map coreFields :=
    List.mem_map_of_mem _ hr
  rw [positionClientsInCircle_coreFields] at hmem
  obtain ⟨c, hc, hceq⟩ := List.mem_map.1 hmem
  exact ⟨c, hc, hceq.symm⟩

/-- The writeback function of `repositionConnected` keeps every client id. -/
theorem reposition_find_clientId (rep : List ClientData) (c : ClientData) :
    ((rep.find? (fun r => r.clientId = c.clientId)).getD c).clientId = c.clientId := by
  cases hfind : rep.find? (fun r => r.clientId = c.clientId) with
  | none => rfl
  | some r =>
    simpa using List.find?_some hfind

/-- Under pairwise-distinct keys, the writeback of `repositionConnected`
preserves everything but the position, record by record. -/
theorem reposition_pointwise (tm : TrigModel) (st : RoomState)
    (hkeys : (st.clientData.map ClientData.clientId).Nodup)
    (c : ClientData) (hc : c ∈ st.clientData) :
    coreFields (((positionClientsInCircle tm (getClients st)).find?
      (fun r => r.clientId = c.clientId)).getD c) = coreFields c := by
  cases hfind : (positionClientsInCircle tm (getClients st)).find?
      (fun r => r.clientId = c.clientId) with
  | none => rfl
  | some r =>
    have hrid : r.clientId = c.clientId := by simpa using List.find?_some hfind
    have hrmem := List.mem_of_find?_eq_some hfind
    obtain ⟨b, hb, hbeq⟩ := mem_coreFields_of_mem_circle tm _ r hrmem
    have hbcd : b ∈ st.clientData := ((mem_getClients_iff st b).1 hb).1
    have hbid : b.clientId = c.clientId := by
      have h1 : r.clientId = b.clientId := congrArg (fun q => q.2.1) hbeq
      rw [← h1]
      exact hrid
    have hbc : b = c := List.inj_on_of_nodup_map hkeys hbcd hc hbid
    rw [Option.getD_some, hbeq, hbc]

/-- Under pairwise-distinct keys, `repositionConnected` preserves every field
of every record except positions, keeping the list shape. -/
theorem reposition_core_map (tm : TrigModel) (st : RoomState)
    (hkeys : (st.clientData.map ClientData.clientId).Nodup) :
    (repositionConnected tm st).clientData.map coreFields
      = st.clientData.map coreFields := by
  simp only [repositionConnected]
  rw [List.map_map]
  exact List.map_congr_left (fun c hc => reposition_pointwise tm st hkeys c hc)

/-- Looking up through an id-preserving map commutes. -/
theorem lookupClient_map_clientId (l : List ClientData) (f : ClientData → ClientData)
    (hf : ∀ c ∈ l, (f c).clientId = c.clientId) (cid : String) :
    lookupClient (l.map f) cid = (lookupClient l cid).map f := by
  induction l with
  | nil => rfl
  | cons d rest ih =>
    have hd := hf d (List.mem_cons_self _ _)
    by_cases h : d.clientId = cid
    · simp [lookupClient, List.find?_cons, hd, h]
    · have hfd : ¬ (f d).clientId = cid := by rw [hd]; exact h
      simpa [lookupClient, List.find?_cons, hd, h, hfd] using
        ih (fun c hc => hf c (List.mem_cons_of_mem _ hc))

/-- A connected admin witness gives the admin invariant. -/
theorem adminInvariant_of_exists (st : RoomState)
    (h : ∃ c ∈ st.clientData, c.clientId ∈ st.wsConnections ∧ c.isAdmin = true) :
    adminInvariant st := by
  intro _
  obtain ⟨c, hc, hw, ha⟩ := h
  exact ⟨c, (mem_getClients_iff st c).2 ⟨hc, hw⟩, ha⟩

/-- The admin invariant only reads the client map and the connection set. -/
theorem adminInvariant_congr (s s' : RoomState)
    (hcd : s'.clientData = s.clientData) (hws : s'.wsConnections = s.wsConnections)
    (h : adminInvariant s) : adminInvariant s' := by
  unfold adminInvariant getClients at h ⊢
  rw [hcd, hws]
  exact h

/-- A witness on (clientId, isAdmin) survives a `coreFields`-equal replacement
of the client list. -/
theorem exists_core_transfer (l l' : List ClientData) (p : String → Bool → Prop)
    (hmap : l'.map coreFields = l.map coreFields)
    (h : ∃ c ∈ l, p c.clientId c.isAdmin) : ∃ c ∈ l', p c.clientId c.isAdmin := by
  obtain ⟨c, hc, hp⟩ := h
  have hmem : coreFields c ∈ l'.map coreFields := by
    rw [hmap]
    exact List.mem_map_of_mem _ hc
  obtain ⟨c', hc', hceq⟩ := List.mem_map.1 hmem
  have h1 : c'.clientId = c.clientId := congrArg (fun q => q.2.1) hceq
  have h2 : c'.isAdmin = c.isAdmin := congrArg (fun q => q.2.2.2.2.1) hceq
  refine ⟨c', hc', ?_⟩
  rw [h1, h2]
  exact hp

/-- Connected-view lengths agree across a `coreFields`-equal replacement. -/
theorem filter_length_core (ws : List String) :
    ∀ (l l' : List ClientData), l'.map coreFields = l.map coreFields →
      (l'.filter (fun c => c.clientId ∈ ws)).length
        = (l.filter (fun c => c.clientId ∈ ws)).length := by
  intro l
  induction l with
  | nil =>
    intro l' hmap
    cases l' with
    | nil => rfl
    | cons a as => simp at hmap
  | cons d rest ih =>
    intro l' hmap
    cases l' with
    | nil => simp at hmap
    | cons e es =>
      rw [List.map_cons, List.map_cons] at hmap
      rw [List.cons_eq_cons] at hmap
      have hid : e.clientId = d.clientId := congrArg (fun q => q.2.1) hmap.1
      by_cases h : d.clientId ∈ ws
      · simp [List.filter_cons, hid, h, ih es hmap.2]
      · simp [List.filter_cons, hid, h, ih es hmap.2]

/-! ## The stored join record -/

/-- The join record is keyed by the joining client id in every branch. -/
theorem joinRecord_clientId (st : RoomState) (cid username : String) (now : ℚ) :
    (joinRecord st cid username now).clientId = cid := by
  simp only [joinRecord]
  cases hl : lookupClient st.clientData cid <;> split_ifs <;> rfl

/-- The join record's position is (ORIGIN_X, ORIGIN_Y − 25) in every branch
(prior to the repositioning pass). -/
theorem joinRecord_position (st : RoomState) (cid username : String) (now : ℚ) :
    (joinRecord st cid username now).position
      = { x := GRID_ORIGIN_X, y := GRID_ORIGIN_Y - 25 } := by
  simp only [joinRecord]
  cases hl : lookupClient st.clientData cid <;> split_ifs <;> rfl

/-- Cached rejoin: username, location and joinedAt are restored verbatim, and
the admin flag is the cached one, overridden to true when the room had no
connected client. -/
theorem joinRecord_fields_cached (st : RoomState) (cid username : String)
    (now : ℚ) (cached : ClientData)
    (hl : lookupClient st.clientData cid = some cached) :
    (joinRecord st cid username now).username = cached.username ∧
    (joinRecord st cid username now).location = cached.location ∧
    (joinRecord st cid username now).joinedAt = cached.joinedAt ∧
    (joinRecord st cid username now).isAdmin
      = (cached.isAdmin || st.wsConnections.isEmpty) := by
  cases hws : st.wsConnections.isEmpty <;> simp [joinRecord, hl, hws]

/-- Fresh join: the defaults of the constructed record. -/
theorem joinRecord_fields_fresh (st : RoomState) (cid username : String)
    (now : ℚ) (hl : lookupClient st.clientData cid = none) :
    (joinRecord st cid username now).username = username ∧
    (joinRecord st cid username now).rtt = 0 ∧
    (joinRecord st cid username now).joinedAt = now ∧
    (joinRecord st cid username now).location = none ∧
    (joinRecord st cid username now).isAdmin = st.wsConnections.isEmpty := by
  cases hws : st.wsConnections.isEmpty <;> simp [joinRecord, hl, hws]

/-- After `addClient`, the joining id looks up to a record that agrees with the
join record everywhere but the position; when the joiner is alone, its stored
position is exactly the centered (ORIGIN_X, ORIGIN_Y − 25). -/
theorem addClient_lookup (tm : TrigModel) (st : RoomState) (cid username : String)
    (now : ℚ) (hkeys : (st.clientData.map ClientData.clientId).Nodup) :
    ∃ c : ClientData,
      lookupClient (addClient tm st cid username now).clientData cid = some c ∧
      coreFields c = coreFields (joinRecord st cid username now) ∧
      (st.wsConnections = [] →
        c.position = { x := GRID_ORIGIN_X, y := GRID_ORIGIN_Y - 25 }) := by
  set J := joinRecord st cid username now with hJ
  have hJcid : J.clientId = cid := joinRecord_clientId st cid username now
  set st1 : RoomState :=
    { st with clientData := setClient st.clientData J,
              wsConnections := wsInsert st.wsConnections cid } with hst1
  have hkeys1 : (st1.clientData.map ClientData.clientId).Nodup :=
    setClient_keys_nodup st.clientData J hkeys
  have hf : ∀ c ∈ st1.clientData,
      (((positionClientsInCircle tm (getClients st1)).find?
        (fun r => r.clientId = c.clientId)).getD c).clientId = c.clientId :=
    fun c _ => reposition_find_clientId _ c
  have hmapl : lookupClient (addClient tm st cid username now).clientData cid
      = (lookupClient st1.clientData cid).map
        (fun c => ((positionClientsInCircle tm (getClients st1)).find?
          (fun r => r.clientId = c.clientId)).getD c) := by
    exact lookupClient_map_clientId st1.clientData _ hf cid
  have hlook1 : lookupClient st1.clientData cid = some J := by
    have h := lookupClient_setClient_self st.clientData J
    rw [hJcid] at h
    exact h
  refine ⟨((positionClientsInCircle tm (getClients st1)).find?
      (fun r => r.clientId = J.clientId)).getD J, ?_, ?_, ?_⟩
  · rw [hmapl, hlook1]
    rfl
  · exact reposition_pointwise tm st1 hkeys1 J (setClient_mem_self _ _)
  · intro hws
    have hws1 : st1.wsConnections = [cid] := by
      show wsInsert st.wsConnections cid = [cid]
      rw [hws]
      simp [wsInsert]
    have hget : getClients st1 = [J] := by
      show st1.clientData.filter (fun c => c.clientId ∈ st1.wsConnections) = [J]
      rw [hws1]
      calc st1.clientData.filter (fun c => c.clientId ∈ ([cid] : List String))
          = st1.clientData.filter (fun c => c.clientId = J.clientId) :=
            List.filter_congr (fun c _ => by simp [hJcid])
        _ = [J] := filter_key_setClient st.clientData J hkeys
    rw [hget]
    have hcirc : positionClientsInCircle tm [J] =
        [{ J with position := { x := GRID_ORIGIN_X, y := GRID_ORIGIN_Y - 25 } }] := by
      simp [positionClientsInCircle]
    rw [hcirc]
    have hfind : ([{ J with position :=
          { x := GRID_ORIGIN_X, y := GRID_ORIGIN_Y - 25 } }].find?
        (fun r => r.clientId = J.clientId))
        = some { J with position := { x := GRID_ORIGIN_X, y := GRID_ORIGIN_Y - 25 } } := by
      simp [List.find?_cons]
    rw [hfind]
    rfl

/-! ## Claim C7 -/

/-- Claim C7 counterexample: a cached non-admin record rejoining an empty room
is stored with `isAdmin = true` (the "first client of an empty room is admin"
override), not with the cached `isAdmin = false` the claim asserts. -/
theorem addClient_admin_override :
    lookupClient exCacheRoom.clientData "b" = some cachedNonAdmin ∧
    cachedNonAdmin.isAdmin = false ∧
    exCacheRoom.wsConnections = [] ∧
    ∃ c, lookupClient (addClient tmZero exCacheRoom "b" "bob" 10).clientData "b"
        = some c ∧ c.isAdmin = true := by
  decide

/-- Claim C7 (amended): when a prior record with the same clientId exists, the
stored record takes username, location and joinedAt from the cached record and
its isAdmin is the cached flag OR-ed with the empty-room override; otherwise it
is created with joinedAt = now, rtt = 0, position = (ORIGIN_X, ORIGIN_Y − 25)
(before the repositioning pass; the position survives verbatim when the joiner
is alone) and isAdmin true exactly when no clients were connected. -/
theorem addClient_record_semantics (tm : TrigModel) (st : RoomState)
    (cid username : String) (now : ℚ)
    (hkeys : (st.clientData.map ClientData.clientId).Nodup) :
    ∃ c : ClientData,
      lookupClient (addClient tm st cid username now).clientData cid = some c ∧
      (∀ cached, lookupClient st.clientData cid = some cached →
        c.username = cached.username ∧ c.location = cached.location ∧
        c.joinedAt = cached.joinedAt ∧
        c.isAdmin = (cached.isAdmin || st.wsConnections.isEmpty)) ∧
      (lookupClient st.clientData cid = none →
        c.username = username ∧ c.joinedAt = now ∧ c.rtt = 0 ∧
        c.location = none ∧ c.isAdmin = st.wsConnections.isEmpty) ∧
      (joinRecord st cid username now).position
        = { x := GRID_ORIGIN_X, y := GRID_ORIGIN_Y - 25 } ∧
      (st.wsConnections = [] →
        c.position = { x := GRID_ORIGIN_X, y := GRID_ORIGIN_Y - 25 }) := by
  obtain ⟨c, hlook, hcore, hpos⟩ := addClient_lookup tm st cid username now hkeys
  have hu : c.username = (joinRecord st cid username now).username :=
    congrArg (fun q => q.1) hcore
  have hrtt : c.rtt = (joinRecord st cid username now).rtt :=
    congrArg (fun q => q.2.2.1) hcore
  have hadm : c.isAdmin = (joinRecord st cid username now).isAdmin :=
    congrArg (fun q => q.2.2.2.2.1) hcore
  have hloc : c.location = (joinRecord st cid username now).location :=
    congrArg (fun q => q.2.2.2.2.2.1) hcore
  have hjoin : c.joinedAt = (joinRecord st cid username now).joinedAt :=
    congrArg (fun q => q.2.2.2.2.2.2) hcore
  refine ⟨c, hlook, ?_, ?_, joinRecord_position st cid username now, hpos⟩
  · intro cached hl
    obtain ⟨h1, h2, h3, h4⟩ := joinRecord_fields_cached st cid username now cached hl
    exact ⟨hu.trans h1, hloc.trans h2, hjoin.trans h3, hadm.trans h4⟩
  · intro hl
    obtain ⟨h1, h2, h3, h4, h5⟩ := joinRecord_fields_fresh st cid username now hl
    exact ⟨hu.trans h1, hjoin.trans h3, hrtt.trans h2, hloc.trans h4, hadm.trans h5⟩

/-- Claim C7 witness: the amended theorem at the cached-rejoin room. -/
theorem addClient_record_semantics_witness :
    ∃ c : ClientData,
      lookupClient (addClient tmZero exCacheRoom "b" "bob" 10).clientData "b" = some c ∧
      (∀ cached, lookupClient exCacheRoom.clientData "b" = some cached →
        c.username = cached.username ∧ c.location = cached.location ∧
        c.joinedAt = cached.joinedAt ∧
        c.isAdmin = (cached.isAdmin || exCacheRoom.wsConnections.isEmpty)) ∧
      (lookupClient exCacheRoom.clientData "b" = none →
        c.username = "bob" ∧ c.joinedAt = 10 ∧ c.rtt = 0 ∧
        c.location = none ∧ c.isAdmin = exCacheRoom.wsConnections.isEmpty) ∧
      (joinRecord exCacheRoom "b" "bob" 10).position
        = { x := GRID_ORIGIN_X, y := GRID_ORIGIN_Y - 25 } ∧
      (exCacheRoom.wsConnections = [] →
        c.position = { x := GRID_ORIGIN_X, y := GRID_ORIGIN_Y - 25 }) :=
  addClient_record_semantics tmZero exCacheRoom "b" "bob" 10 (by decide)

/-! ## Claim C3 -/

/-- `executeScheduledPlay` only touches pendingPlay and the playback state. -/
theorem executeScheduledPlay_client_fields (st : RoomState) (now : ℚ) :
    (executeScheduledPlay st now).1.clientData = st.clientData ∧
    (executeScheduledPlay st now).1.wsConnections = st.wsConnections := by
  cases hpp : st.pendingPlay with
  | none => simp [executeScheduledPlay, hpp]
  | some pp =>
    cases hany : ({ st with pendingPlay := none } : RoomState).audioSources.any
        (fun s => s.url = pp.playAction.audioSource) with
    | true =>
      have hrw := updatePlay_of_any { st with pendingPlay := none } pp.playAction
        (getScheduledExecutionTime { st with pendingPlay := none } now 0) hany
      simp [executeScheduledPlay, hpp, hrw]
    | false =>
      have hrw := updatePlay_of_not_any { st with pendingPlay := none } pp.playAction
        (getScheduledExecutionTime { st with pendingPlay := none } now 0) hany
      simp [executeScheduledPlay, hpp, hrw]

/-- The barrier re-check of `removeClient` only touches pendingPlay and the
playback state. -/
theorem removeClientBarrier_client_fields (s3 : RoomState) (cid : String) (now : ℚ) :
    (removeClientBarrier s3 cid now).1.clientData = s3.clientData ∧
    (removeClientBarrier s3 cid now).1.wsConnections = s3.wsConnections := by
  cases hpp : s3.pendingPlay with
  | none => simp [removeClientBarrier, hpp]
  | some pp =>
    simp only [removeClientBarrier, hpp]
    split_ifs with hall
    · exact executeScheduledPlay_client_fields _ now
    · exact ⟨rfl, rfl⟩

/-- After `promoteIfNoAdmin` (given a random fraction in [0,1) and
pairwise-distinct keys), a connected admin exists whenever a client is
connected. -/
theorem promoteIfNoAdmin_invariant (tm : TrigModel) (S : RoomState) (randFrac : ℚ)
    (hkeys : (S.clientData.map ClientData.clientId).Nodup)
    (h0 : 0 ≤ randFrac) (h1 : randFrac < 1) :
    adminInvariant (promoteIfNoAdmin tm S randFrac) := by
  simp only [promoteIfNoAdmin]
  split_ifs with hlen hadm
  · -- clients remain and no connected admin: promotion
    have hlen2 : (getClients (repositionConnected tm S)).length
        = (getClients S).length :=
      filter_length_core S.wsConnections S.clientData _ (reposition_core_map tm S hkeys)
    have hpos : 0 < (getClients (repositionConnected tm S)).length := by
      rw [hlen2]
      exact hlen
    have hfl : (⌊randFrac * ((getClients (repositionConnected tm S)).length : ℚ)⌋).toNat
        < (getClients (repositionConnected tm S)).length := by
      have hnn : (0:ℚ) ≤ randFrac * ((getClients (repositionConnected tm S)).length : ℚ) :=
        mul_nonneg h0 (by positivity)
      have hlt : randFrac * ((getClients (repositionConnected tm S)).length : ℚ)
          < ((getClients (repositionConnected tm S)).length : ℚ) := by
        calc randFrac * ((getClients (repositionConnected tm S)).length : ℚ)
            < 1 * ((getClients (repositionConnected tm S)).length : ℚ) :=
              mul_lt_mul_of_pos_right h1 (by exact_mod_cast hpos)
          _ = ((getClients (repositionConnected tm S)).length : ℚ) := one_mul _
      have hfl0 : 0 ≤ ⌊randFrac * ((getClients (repositionConnected tm S)).length : ℚ)⌋ :=
        Int.floor_nonneg.2 hnn
      have hfln : ⌊randFrac * ((getClients (repositionConnected tm S)).length : ℚ)⌋
          < ((getClients (repositionConnected tm S)).length : ℤ) :=
        Int.floor_lt.2 (by exact_mod_cast hlt)
      omega
    cases hget : (getClients (repositionConnected tm S))[(⌊randFrac *
        ((getClients (repositionConnected tm S)).length : ℚ)⌋).toNat]? with
    | none =>
      exfalso
      have := List.getElem?_eq_none_iff.1 hget
      omega
    | some newAdmin =>
      apply adminInvariant_of_exists
      refine ⟨{ newAdmin with isAdmin := true }, setClient_mem_self _ _, ?_, rfl⟩
      have hmem : newAdmin ∈ getClients (repositionConnected tm S) :=
        List.getElem?_mem hget
      exact ((mem_getClients_iff _ _).1 hmem).2
  · -- a connected admin remains
    have hpos : 0 < ((getClients (repositionConnected tm S)).filter
        (fun c => c.isAdmin)).length := Nat.pos_of_ne_zero hadm
    obtain ⟨a, ha⟩ := List.exists_mem_of_length_pos hpos
    have hmem := List.mem_of_mem_filter ha
    have hadm2 : a.isAdmin = true := List.of_mem_filter ha
    apply adminInvariant_of_exists
    exact ⟨a, ((mem_getClients_iff _ _).1 hmem).1,
      ((mem_getClients_iff _ _).1 hmem).2, hadm2⟩
  · -- no client connected: the invariant is vacuous
    intro hne
    exact absurd (List.length_eq_zero.1 (Nat.eq_zero_of_not_pos hlen)) hne

/-- Claim C3 counterexample: from the reachable one-admin room,
`setAdmin(target, false)` demotes the only connected admin, leaving a room with
a connected client and no connected admin — `setAdmin` performs no last-admin
check. -/
theorem setAdmin_demotes_last_admin :
    (∃ c ∈ getClients (addClient tmZero initialRoomState "a" "alice" 0),
      c.isAdmin = true) ∧
    getClients (setAdmin (addClient tmZero initialRoomState "a" "alice" 0)
      "a" false) ≠ [] ∧
    ∀ c ∈ getClients (setAdmin (addClient tmZero initialRoomState "a" "alice" 0)
      "a" false), c.isAdmin = false := by
  decide

/-- Claim C3 (amended): the at-least-one-connected-admin invariant is preserved
by `addClient` (for map-shaped states: distinct keys, connections backed by
records) and restored by `removeClient` (whose random pick lands in range for
any `randFrac ∈ [0,1)`); `setAdmin` does not preserve it — demoting the last
admin violates it. -/
theorem admin_invariant_add_remove (tm : TrigModel) (st : RoomState)
    (cid username : String) (randFrac now : ℚ)
    (hkeys : (st.clientData.map ClientData.clientId).Nodup)
    (hcover : ∀ id2 ∈ st.wsConnections, ∃ c ∈ st.clientData, c.clientId = id2)
    (hinv : adminInvariant st) (h0 : 0 ≤ randFrac) (h1 : randFrac < 1) :
    adminInvariant (addClient tm st cid username now) ∧
    adminInvariant (removeClient tm st cid randFrac now).1 := by
  constructor
  · set J := joinRecord st cid username now with hJ
    have hJcid : J.clientId = cid := joinRecord_clientId st cid username now
    set st1 : RoomState :=
      { st with clientData := setClient st.clientData J,
                wsConnections := wsInsert st.wsConnections cid } with hst1
    have hkeys1 : (st1.clientData.map ClientData.clientId).Nodup :=
      setClient_keys_nodup st.clientData J hkeys
    have hstep : ∃ c ∈ st1.clientData,
        c.clientId ∈ st1.wsConnections ∧ c.isAdmin = true := by
      cases hws : st.wsConnections.isEmpty with
      | true =>
        have hadm : J.isAdmin = true := by
          cases hl : lookupClient st.clientData cid with
          | none =>
            have h5 := (joinRecord_fields_fresh st cid username now hl).2.2.2.2
            rw [← hJ] at h5
            rw [h5, hws]
          | some cached =>
            have h4 := (joinRecord_fields_cached st cid username now cached hl).2.2.2
            rw [← hJ] at h4
            rw [h4, hws]
            simp
        exact ⟨J, setClient_mem_self _ _,
          by rw [hJcid]; exact mem_wsInsert_self _ _, hadm⟩
      | false =>
        have hne : getClients st ≠ [] := by
          have hwsne : st.wsConnections ≠ [] := by
            intro hnil
            rw [hnil] at hws
            simp at hws
          obtain ⟨id2, hid2⟩ := List.exists_mem_of_ne_nil st.wsConnections hwsne
          obtain ⟨c, hc, hcid⟩ := hcover id2 hid2
          intro hnil
          have hcmem : c ∈ getClients st :=
            (mem_getClients_iff st c).2 ⟨hc, by rw [hcid]; exact hid2⟩
          rw [hnil] at hcmem
          cases hcmem
        obtain ⟨a, haG, haAdm⟩ := hinv hne
        obtain ⟨hacd, haws⟩ := (mem_getClients_iff st a).1 haG
        by_cases hac : a.clientId = cid
        · have hlook : lookupClient st.clientData cid = some a := by
            rw [← hac]
            exact lookupClient_of_mem_nodup st.clientData a hkeys hacd
          have hadm : J.isAdmin = true := by
            have h4 := (joinRecord_fields_cached st cid username now a hlook).2.2.2
            rw [← hJ] at h4
            rw [h4, haAdm]
            simp
          exact ⟨J, setClient_mem_self _ _,
            by rw [hJcid]; exact mem_wsInsert_self _ _, hadm⟩
        · exact ⟨a, setClient_mem_of_ne st.clientData J a hacd
            (by rw [hJcid]; exact hac), mem_wsInsert_of_mem _ _ _ haws, haAdm⟩
    apply adminInvariant_of_exists
    show ∃ c ∈ (repositionConnected tm st1).clientData,
      c.clientId ∈ (repositionConnected tm st1).wsConnections ∧ c.isAdmin = true
    exact exists_core_transfer st1.clientData _
      (fun id2 adm => id2 ∈ st1.wsConnections ∧ adm = true)
      (reposition_core_map tm st1 hkeys1) hstep
  · have hfields := removeClientBarrier_client_fields
      (promoteIfNoAdmin tm { st with wsConnections := st.wsConnections.erase cid }
        randFrac) cid now
    have hP := promoteIfNoAdmin_invariant tm
      { st with wsConnections := st.wsConnections.erase cid } randFrac hkeys h0 h1
    exact adminInvariant_congr _ _ hfields.1 hfields.2 hP

/-- Claim C3 witness: the amended theorem at the concrete one-admin room. -/
theorem admin_invariant_add_remove_witness :
    adminInvariant (addClient tmZero exRoom "b" "bob" 5) ∧
    adminInvariant (removeClient tmZero exRoom "b" 0 5).1 :=
  admin_invariant_add_remove tmZero exRoom "b" "bob" 0 5
    (by decide) (by decide) (fun _ => ⟨exAdminClient, by decide, by decide⟩)
    (by decide) (by decide)

end Beatsync
